import Mathlib

/-!
Verification of the separate-chaining hash table implemented in
`src/Hash_tables.py`.

The Python class `HashTable` is embedded shallowly:

* the mutable object becomes the structure `HashTable` below, and every
  method becomes a function from the old state to a result and a new state;
* Python integers are `ℤ` (or `ℕ` where the source keeps the quantity
  non-negative), and Python's `%` and `//` on a positive right operand are
  `Int.emod` / `Int.ediv`, which agree with Python's floored semantics there;
* the load factor is carried as an exact rational; `int(size * load_factor)`
  is truncation towards zero of the exact product, computed on the
  unreduced fraction `(size * lf.num) / lf.den` by `Int.tdiv`;
* `hash(key)` becomes a parameter `hash : K → Option ℤ`; `none` models a key
  that is not hashable (Python raises `TypeError` from `hash()`);
* a raised exception is modelled as `Except.error s` where `s` is the state
  of the container object at the moment the exception escapes (the Python
  object keeps all mutations performed before the raise);
* the recursion between `put` and `_resize` is not structural, so the two
  functions take an explicit `fuel` argument bounding the recursion depth;
  `none` is returned when the budget is exhausted.  The development proves
  that depth `entryCount t + 1` always suffices, so `none` never occurs for
  adequate fuel.
-/

set_option linter.unusedSectionVars false

namespace HashTables

/-- The source's `_is_power_of_two(n)`: `(n & (n - 1)) == 0 and n != 0`. -/
def isPowTwo (n : ℕ) : Bool :=
  (n &&& (n - 1)) == 0 && n != 0

/-- The source's `int(size * load_factor)`: the exact product
`size * load_factor` truncated towards zero.  On the unreduced fraction
`(size * lf.num) / lf.den` truncation towards zero is `Int.tdiv`. -/
def pyThreshold (size : ℕ) (lf : ℚ) : ℤ :=
  Int.tdiv ((size : ℤ) * lf.num) (lf.den : ℤ)

/-- The state of a `HashTable` object: the fields `size`, `load_factor`,
`threshold`, `count` and `table` of the Python class. -/
structure HashTable (K V : Type) where
  size : ℕ
  loadFactor : ℚ
  threshold : ℤ
  count : ℕ
  table : List (List (K × V))
deriving DecidableEq, Repr

deriving instance DecidableEq for Except

/-- Result of a fallible, possibly state-mutating operation: `none` when the
modelling fuel ran out, `some (Except.error s)` when the operation raised with
the object left in state `s`, `some (Except.ok a)` on normal completion. -/
abbrev PyRes (σ α : Type) := Option (Except σ α)

variable {K V A : Type} [DecidableEq K]

/-- `__init__(initial_size, load_factor)`: `none` models the `ValueError`
raised when `initial_size` is not a power of two. -/
def mkHashTable (initialSize : ℕ) (lf : ℚ) : Option (HashTable K V) :=
  if isPowTwo initialSize then
    some { size := initialSize
           loadFactor := lf
           threshold := pyThreshold initialSize lf
           count := 0
           table := List.replicate initialSize [] }
  else none

/-- `_hash(key)`: `hash(key) % self.size`; `none` models the `TypeError`
raised by `hash` on an unhashable key. -/
def pyIdx (hash : K → Option ℤ) (size : ℕ) (key : K) : Option ℤ :=
  (hash key).map (fun h => h % (size : ℤ))

/-- The bucket index as a natural number (the value of `_hash` is
non-negative whenever `size > 0`, see `pyIdx_bounds`). -/
def idxNat (hash : K → Option ℤ) (size : ℕ) (key : K) : Option ℕ :=
  (pyIdx hash size key).map Int.toNat

/-- The scan loop of `get`: value of the first entry of the chain whose key
equals `key`. -/
def chainFind (key : K) : List (K × V) → Option V
  | [] => none
  | (k, v) :: rest => if k = key then some v else chainFind key rest

/-- The update loop of `put`: replace the value of the first entry whose key
equals `key`, keeping its position; `none` when the key is absent from the
chain. -/
def chainUpdate (key : K) (value : V) : List (K × V) → Option (List (K × V))
  | [] => none
  | (k, v) :: rest =>
    if k = key then some ((key, value) :: rest)
    else (chainUpdate key value rest).map (fun c => (k, v) :: c)

/-- The removal loop of `delete`: drop the first entry whose key equals
`key` and return its value; `none` when the key is absent from the chain. -/
def chainRemove (key : K) : List (K × V) → Option (V × List (K × V))
  | [] => none
  | (k, v) :: rest =>
    if k = key then some (v, rest)
    else (chainRemove key rest).map (fun p => (p.1, (k, v) :: p.2))

/-- `items()`: all key/value pairs, in bucket order and then chain order. -/
def items (t : HashTable K V) : List (K × V) :=
  t.table.flatten

/-- `keys()`. -/
def keys (t : HashTable K V) : List K :=
  (items t).map Prod.fst

/-- `values()`. -/
def values (t : HashTable K V) : List V :=
  (items t).map Prod.snd

/-- The total number of entries, summed over all chains. -/
def entryCount (t : HashTable K V) : ℕ :=
  (t.table.map List.length).sum

/-- The key/value association realised by the whole table: the first entry
with the given key anywhere in `items`. -/
def lookupTable (t : HashTable K V) (key : K) : Option V :=
  chainFind key (items t)

/-- The reinsertion loop of `_resize`: feed every surviving pair to the given
insertion routine, propagating fuel exhaustion and exceptions. -/
def reinsertWith (p : HashTable K V → K → V → PyRes (HashTable K V) (HashTable K V)) :
    List (K × V) → HashTable K V → PyRes (HashTable K V) (HashTable K V)
  | [], s => some (Except.ok s)
  | (k, v) :: rest, s =>
    match p s k v with
    | none => none
    | some (Except.error e) => some (Except.error e)
    | some (Except.ok s') => reinsertWith p rest s'

/-- The fresh state `_resize` installs before re-inserting: `new_size` empty
buckets, the threshold recomputed for the new size, and a zero count. -/
def resizeBase (t : HashTable K V) (newSize : ℕ) : HashTable K V :=
  { size := newSize
    loadFactor := t.loadFactor
    threshold := pyThreshold newSize t.loadFactor
    count := 0
    table := List.replicate newSize [] }

/-- `_resize(new_size)`: validate the new size (`ValueError` leaves the state
untouched), install `new_size` fresh buckets with the recomputed threshold and
a zero count, then re-`put` every pair of the old table. -/
def resizeWith (p : HashTable K V → K → V → PyRes (HashTable K V) (HashTable K V))
    (t : HashTable K V) (newSize : ℕ) : PyRes (HashTable K V) (HashTable K V) :=
  if isPowTwo newSize then
    reinsertWith p (items t) (resizeBase t newSize)
  else some (Except.error t)

/-- The part of `put` after the growth check: compute the bucket index (a
`TypeError` escapes here, after any growth), then update in place or append. -/
def putCore (hash : K → Option ℤ) (t1 : HashTable K V) (key : K) (value : V) :
    PyRes (HashTable K V) (HashTable K V) :=
  match pyIdx hash t1.size key with
  | none => some (Except.error t1)
  | some idx =>
    let bucket := t1.table.getD idx.toNat []
    match chainUpdate key value bucket with
    | some newBucket =>
      some (Except.ok { t1 with table := t1.table.set idx.toNat newBucket })
    | none =>
      some (Except.ok { t1 with
        table := t1.table.set idx.toNat (bucket ++ [(key, value)])
        count := t1.count + 1 })

/-- `put(key, value)`: grow first when `count >= threshold`, then update or
append in the key's bucket.  `fuel` bounds the depth of the `put`/`_resize`
recursion. -/
def put (hash : K → Option ℤ) : ℕ → HashTable K V → K → V → PyRes (HashTable K V) (HashTable K V)
  | 0, _, _, _ => none
  | fuel + 1, t, key, value =>
    match (if t.threshold ≤ (t.count : ℤ) then
             resizeWith (put hash fuel) t (t.size * 2)
           else some (Except.ok t)) with
    | none => none
    | some (Except.error e) => some (Except.error e)
    | some (Except.ok t1) => putCore hash t1 key value

/-- `get(key, default)`: pure lookup; `Except.error` models the `TypeError`
on an unhashable key (the state is not touched). -/
def get (hash : K → Option ℤ) (t : HashTable K V) (key : K) (default : V) : Except Unit V :=
  match pyIdx hash t.size key with
  | none => Except.error ()
  | some idx =>
    match chainFind key (t.table.getD idx.toNat []) with
    | some v => Except.ok v
    | none => Except.ok default

/-- `__contains__(key)`: `self.get(key) is not None`.  Python values that may
be `None` are modelled by the value type `Option A`, with `none` playing
Python's `None`; `get`'s default is `None`. -/
def contains (hash : K → Option ℤ) (t : HashTable K (Option A)) (key : K) : Except Unit Bool :=
  (get hash t key none).map Option.isSome

/-- `delete(key)`: remove the first matching entry of the key's bucket,
shrink when `size > 8 and count < threshold // 4`, and return the removed
value (`none` models Python's `None` result for an absent key). -/
def delete (hash : K → Option ℤ) (fuel : ℕ) (t : HashTable K V) (key : K) :
    PyRes (HashTable K V) (Option V × HashTable K V) :=
  match pyIdx hash t.size key with
  | none => some (Except.error t)
  | some idx =>
    match chainRemove key (t.table.getD idx.toNat []) with
    | none => some (Except.ok (none, t))
    | some (v, newBucket) =>
      let t1 : HashTable K V :=
        { t with table := t.table.set idx.toNat newBucket, count := t.count - 1 }
      if 8 < t1.size ∧ (t1.count : ℤ) < Int.fdiv t1.threshold 4 then
        match resizeWith (put hash fuel) t1 (max 8 (t1.size / 2)) with
        | none => none
        | some (Except.error e) => some (Except.error e)
        | some (Except.ok t2) => some (Except.ok (some v, t2))
      else some (Except.ok (some v, t1))

/-- `__len__()`. -/
def lenTable (t : HashTable K V) : ℕ :=
  t.count

/-- A single step of a client: one `put` or one `delete`. -/
inductive Op (K V : Type) where
  | put : K → V → Op K V
  | del : K → Op K V
deriving DecidableEq

/-- The key an operation touches. -/
def Op.key : Op K V → K
  | Op.put k _ => k
  | Op.del k => k

/-- Run one operation with recursion depth `entryCount t + 1` (shown
sufficient by `put_ok` / `delete_ok`); `none` when the operation raised or
ran out of depth. -/
def runOp (hash : K → Option ℤ) (t : HashTable K V) : Op K V → Option (HashTable K V)
  | Op.put k v =>
    match put hash (entryCount t + 1) t k v with
    | some (Except.ok t') => some t'
    | _ => none
  | Op.del k =>
    match delete hash (entryCount t + 1) t k with
    | some (Except.ok (_, t')) => some t'
    | _ => none

/-- Run a sequence of operations. -/
def runOps (hash : K → Option ℤ) (t : HashTable K V) : List (Op K V) → Option (HashTable K V)
  | [] => some t
  | o :: rest =>
    match runOp hash t o with
    | none => none
    | some t' => runOps hash t' rest

/-- Reference mapping semantics of one operation. -/
def refOp (m : K → Option V) : Op K V → K → Option V
  | Op.put k v => fun x => if x = k then some v else m x
  | Op.del k => fun x => if x = k then none else m x

/-- Reference mapping semantics of a sequence of operations. -/
def refRun (m : K → Option V) : List (Op K V) → K → Option V
  | [] => m
  | o :: rest => refRun (refOp m o) rest

/-- Bucket-placement check, from bucket index `i` on: every entry sits in the
bucket its hash selects under the current `size`. -/
def bucketsFrom (hash : K → Option ℤ) (size : ℕ) : ℕ → List (List (K × V)) → Bool
  | _, [] => true
  | i, b :: rest =>
    b.all (fun p => idxNat hash size p.1 == some i) && bucketsFrom hash size (i + 1) rest

/-- The well-formedness invariant of a table state: the bucket list has
`size` buckets, `size` passes the power-of-two check, `count` and `threshold`
agree with their defining expressions, keys are pairwise distinct, every
entry sits in its hash bucket and every stored key is hashable. -/
def Inv (hash : K → Option ℤ) (t : HashTable K V) : Prop :=
  t.table.length = t.size ∧
  isPowTwo t.size = true ∧
  t.count = entryCount t ∧
  t.threshold = pyThreshold t.size t.loadFactor ∧
  (keys t).Nodup ∧
  bucketsFrom hash t.size 0 t.table = true ∧
  ∀ p ∈ items t, (hash p.1).isSome = true

instance (hash : K → Option ℤ) (t : HashTable K V) : Decidable (Inv hash t) := by
  unfold Inv; infer_instance

/-- States reachable from construction through any run of the public
mutators, including states left behind by an escaping exception. -/
inductive Reach (hash : K → Option ℤ) (s0 : ℕ) (lf : ℚ) : HashTable K V → Prop where
  | init : ∀ t, mkHashTable s0 lf = some t → Reach hash s0 lf t
  | putOk : ∀ t f k v t', Reach hash s0 lf t →
      put hash f t k v = some (Except.ok t') → Reach hash s0 lf t'
  | putErr : ∀ t f k v t', Reach hash s0 lf t →
      put hash f t k v = some (Except.error t') → Reach hash s0 lf t'
  | delOk : ∀ t f k r t', Reach hash s0 lf t →
      delete hash f t k = some (Except.ok (r, t')) → Reach hash s0 lf t'
  | delErr : ∀ t f k t', Reach hash s0 lf t →
      delete hash f t k = some (Except.error t') → Reach hash s0 lf t'

/-- Specification assumed of the insertion routine handed to `reinsertWith`:
on a well-formed state within the entry budget `B`, inserting a fresh
hashable key succeeds and extends the association by that key. -/
def PutSpec (hash : K → Option ℤ)
    (p : HashTable K V → K → V → PyRes (HashTable K V) (HashTable K V)) (B : ℕ) : Prop :=
  ∀ (s : HashTable K V) (k : K) (v : V) (hv : ℤ), Inv hash s → hash k = some hv →
    lookupTable s k = none → entryCount s < B →
    ∃ s', p s k v = some (Except.ok s') ∧ Inv hash s' ∧
      s'.loadFactor = s.loadFactor ∧
      lookupTable s' k = some v ∧
      (∀ x, x ≠ k → lookupTable s' x = lookupTable s x) ∧
      entryCount s' = entryCount s + 1 ∧
      (8 ≤ s.size → 8 ≤ s'.size)

/-- `put` operations for a batch of pairs. -/
def putsOf (l : List (K × V)) : List (Op K V) :=
  l.map fun q => Op.put q.1 q.2

/-- Hashing for natural-number keys: Python's `hash` on small ints is the
identity. -/
def hashNat : ℕ → Option ℤ := fun n => some (n : ℤ)

/-- A hash function with negative values, exercising the sign convention of
the index reduction. -/
def hashNeg : ℕ → Option ℤ := fun n => some (-(n : ℤ) - 5)

/-- Keys of type `Option ℕ` where `none` is not hashable — the model of a
call site passing an unhashable key such as a list. -/
def hashOpt : Option ℕ → Option ℤ := fun k => k.map fun n => (n : ℤ)

/-- The default-constructed table over natural keys and values. -/
def t08 : HashTable ℕ ℕ :=
  ⟨8, mkRat 3 4, 6, 0, List.replicate 8 []⟩

/-- A table accepted by the constructor with `initial_size = 4`. -/
def t04 : HashTable ℕ ℕ :=
  ⟨4, mkRat 3 4, 3, 0, List.replicate 4 []⟩

/-- A default-sized table holding six entries with keys `some 0 .. some 5`,
at its growth threshold. -/
def tu6 : HashTable (Option ℕ) ℕ :=
  ⟨8, mkRat 3 4, 6, 6,
    [[(some 0, 0)], [(some 1, 1)], [(some 2, 2)], [(some 3, 3)], [(some 4, 4)],
      [(some 5, 5)], [], []]⟩

/-- A table storing the value `none` (Python's `None`) under key 3. -/
def tc8 : HashTable ℕ (Option ℕ) :=
  ⟨8, mkRat 3 4, 6, 1, (List.replicate 8 []).set 3 [(3, none)]⟩

/-- A table storing the value `some 5` under key 3. -/
def tc8b : HashTable ℕ (Option ℕ) :=
  ⟨8, mkRat 3 4, 6, 1, (List.replicate 8 []).set 3 [(3, some 5)]⟩

/-- A grown table (size 16, threshold 12) holding three entries — one
deletion below the shrink threshold. -/
def s16c : HashTable ℕ ℕ :=
  ⟨16, mkRat 3 4, 12, 3,
    ((List.replicate 16 ([] : List (ℕ × ℕ))).set 0 [(0, 0)]).set 1 [(1, 1)]
      |>.set 2 [(2, 2)]⟩

/-- The default load factor 0.75 in kernel-evaluable form. -/
theorem lf_eq : (3 : ℚ) / 4 = mkRat 3 4 := by
  norm_num [Rat.mkRat_eq_div]

/-! ### The power-of-two check -/

theorem land_two_mul_sub_one (m : ℕ) (hm : 0 < m) :
    (2 * m) &&& (2 * m - 1) = 2 * (m &&& (m - 1)) := by
  apply Nat.eq_of_testBit_eq
  intro i
  cases i with
  | zero =>
    have h1 : 2 * m % 2 = 0 := by omega
    have h2 : 2 * (m &&& (m - 1)) % 2 = 0 := by omega
    simp [Nat.testBit_land, Nat.testBit_zero, h1, h2]
  | succ i =>
    have h1 : 2 * m / 2 = m := by omega
    have h2 : (2 * m - 1) / 2 = m - 1 := by omega
    have h3 : 2 * (m &&& (m - 1)) / 2 = m &&& (m - 1) := by omega
    rw [Nat.testBit_land]
    simp only [Nat.testBit_succ, h1, h2, h3]
    rw [Nat.testBit_land]

theorem land_two_mul_add_one (m : ℕ) : (2 * m + 1) &&& (2 * m) = 2 * m := by
  apply Nat.eq_of_testBit_eq
  intro i
  cases i with
  | zero =>
    have h1 : (2 * m + 1) % 2 = 1 := by omega
    have h2 : 2 * m % 2 = 0 := by omega
    simp [Nat.testBit_land, Nat.testBit_zero, h1, h2]
  | succ i =>
    have h1 : (2 * m + 1) / 2 = m := by omega
    have h2 : 2 * m / 2 = m := by omega
    rw [Nat.testBit_land]
    simp only [Nat.testBit_succ, h1, h2, Bool.and_self]

theorem pow_two_land_sub_one (k : ℕ) : 2 ^ k &&& (2 ^ k - 1) = 0 := by
  induction k with
  | zero => decide
  | succ k ih =>
    have h : (2 : ℕ) ^ (k + 1) = 2 * 2 ^ k := by ring
    rw [h, land_two_mul_sub_one _ (Nat.pos_pow_of_pos _ (by norm_num)), ih]

theorem isPowTwo_iff (n : ℕ) : isPowTwo n = true ↔ ∃ k, n = 2 ^ k := by
  constructor
  · intro h
    rw [isPowTwo, Bool.and_eq_true, beq_iff_eq, bne_iff_ne] at h
    obtain ⟨hand, hne⟩ := h
    induction n using Nat.strong_induction_on with
    | _ n ih =>
      rcases Nat.even_or_odd n with ⟨m, hm⟩ | ⟨m, hm⟩
      · have hmpos : 0 < m := by omega
        have h2 : 2 * (m &&& (m - 1)) = 0 := by
          rw [← land_two_mul_sub_one m hmpos]
          rw [show 2 * m = n by omega] at *
          exact hand
        have hm0 : m &&& (m - 1) = 0 := by omega
        obtain ⟨k, hk⟩ := ih m (by omega) hm0 (by omega)
        exact ⟨k + 1, by subst hk; omega⟩
      · rcases Nat.eq_zero_or_pos m with hm0 | hmpos
        · exact ⟨0, by omega⟩
        · exfalso
          have h2 : n &&& (n - 1) = 2 * m := by
            rw [show n = 2 * m + 1 by omega, show 2 * m + 1 - 1 = 2 * m by omega]
            exact land_two_mul_add_one m
          omega
  · rintro ⟨k, rfl⟩
    rw [isPowTwo, Bool.and_eq_true, beq_iff_eq, bne_iff_ne]
    exact ⟨pow_two_land_sub_one k, (Nat.pos_pow_of_pos _ (by norm_num)).ne'⟩

theorem isPowTwo_pos {n : ℕ} (h : isPowTwo n = true) : 0 < n := by
  obtain ⟨k, rfl⟩ := (isPowTwo_iff n).mp h
  exact Nat.pos_pow_of_pos _ (by norm_num)

theorem isPowTwo_double {n : ℕ} (h : isPowTwo n = true) : isPowTwo (n * 2) = true := by
  obtain ⟨k, rfl⟩ := (isPowTwo_iff n).mp h
  exact (isPowTwo_iff _).mpr ⟨k + 1, by ring⟩

/-! ### Bucket index bounds -/

theorem pyIdx_spec {hash : K → Option ℤ} {size : ℕ} {key : K} {h : ℤ}
    (hs : 0 < size) (hh : hash key = some h) :
    pyIdx hash size key = some (h % (size : ℤ)) ∧
      0 ≤ h % (size : ℤ) ∧ h % (size : ℤ) < (size : ℤ) := by
  refine ⟨by simp [pyIdx, hh], Int.emod_nonneg h (by exact_mod_cast hs.ne'), ?_⟩
  exact Int.emod_lt_of_pos h (by exact_mod_cast hs)

theorem idxNat_spec {hash : K → Option ℤ} {size : ℕ} {key : K} {h : ℤ}
    (hs : 0 < size) (hh : hash key = some h) :
    idxNat hash size key = some (h % (size : ℤ)).toNat ∧
      (h % (size : ℤ)).toNat < size := by
  obtain ⟨h1, h2, h3⟩ := pyIdx_spec hs hh
  exact ⟨by simp [idxNat, h1], by omega⟩

/-! ### Chain-scan lemmas -/

theorem chainFind_eq_none {key : K} {c : List (K × V)} :
    chainFind key c = none ↔ key ∉ c.map Prod.fst := by
  induction c with
  | nil => simp [chainFind]
  | cons p rest ih =>
    obtain ⟨k, v⟩ := p
    by_cases hk : k = key
    · subst hk
      simp [chainFind]
    · simp [chainFind, hk, ih, Ne.symm hk]

theorem chainFind_some_mem {key : K} {c : List (K × V)} {v : V}
    (h : chainFind key c = some v) : (key, v) ∈ c := by
  induction c with
  | nil => simp [chainFind] at h
  | cons p rest ih =>
    obtain ⟨k, w⟩ := p
    by_cases hk : k = key
    · simp [chainFind, hk] at h
      simp [hk, h]
    · simp [chainFind, hk] at h
      exact List.mem_cons_of_mem _ (ih h)

theorem chainFind_of_mem_nodup {key : K} {c : List (K × V)} {v : V}
    (hn : (c.map Prod.fst).Nodup) (hm : (key, v) ∈ c) : chainFind key c = some v := by
  induction c with
  | nil => simp at hm
  | cons p rest ih =>
    obtain ⟨k, w⟩ := p
    simp only [List.map_cons, List.nodup_cons] at hn
    rcases List.mem_cons.mp hm with h | h
    · obtain ⟨rfl, rfl⟩ : key = k ∧ v = w := by simpa using h
      simp [chainFind]
    · have hk : k ≠ key := by
        rintro rfl
        exact hn.1 (List.mem_map_of_mem Prod.fst h)
      simp [chainFind, hk, ih hn.2 h]

theorem chainFind_append_some {key : K} {c d : List (K × V)} {v : V}
    (h : chainFind key c = some v) : chainFind key (c ++ d) = some v := by
  induction c with
  | nil => simp [chainFind] at h
  | cons p rest ih =>
    obtain ⟨k, w⟩ := p
    by_cases hk : k = key <;> simp_all [chainFind, hk]

theorem chainFind_append_none {key : K} {c d : List (K × V)}
    (h : chainFind key c = none) : chainFind key (c ++ d) = chainFind key d := by
  induction c with
  | nil => simp
  | cons p rest ih =>
    obtain ⟨k, w⟩ := p
    by_cases hk : k = key <;> simp_all [chainFind, hk]

/-! ### Chain-update lemmas -/

theorem chainUpdate_eq_none {key : K} {value : V} {c : List (K × V)} :
    chainUpdate key value c = none ↔ key ∉ c.map Prod.fst := by
  induction c with
  | nil => simp [chainUpdate]
  | cons p rest ih =>
    obtain ⟨k, v⟩ := p
    by_cases hk : k = key
    · subst hk
      simp [chainUpdate]
    · simp [chainUpdate, hk, ih, Ne.symm hk]

theorem chainUpdate_some_spec {key : K} {value : V} {c c' : List (K × V)}
    (h : chainUpdate key value c = some c') :
    c'.map Prod.fst = c.map Prod.fst ∧ c'.length = c.length ∧
      chainFind key c' = some value ∧
      (∀ x, x ≠ key → chainFind x c' = chainFind x c) ∧
      (∀ p ∈ c', p ∈ c ∨ p = (key, value)) := by
  induction c generalizing c' with
  | nil => simp [chainUpdate] at h
  | cons p rest ih =>
    obtain ⟨k, v⟩ := p
    simp only [chainUpdate] at h
    by_cases hk : k = key
    · rw [if_pos hk] at h
      injection h with h
      subst h
      refine ⟨by simp [hk], by simp, by simp [chainFind], fun x hx => ?_, fun p hp => ?_⟩
      · simp [chainFind, hk, Ne.symm hx]
      · rcases List.mem_cons.mp hp with h | h
        · exact Or.inr h
        · exact Or.inl (List.mem_cons_of_mem _ h)
    · rw [if_neg hk] at h
      obtain ⟨c'', hc'', rfl⟩ := Option.map_eq_some'.mp h
      obtain ⟨h1, h2, h3, h4, h5⟩ := ih hc''
      refine ⟨by simp [h1], by simp [h2], by simp [chainFind, hk, h3], fun x hx => ?_,
        fun p hp => ?_⟩
      · by_cases hkx : k = x <;> simp [chainFind, hkx, h4 x hx]
      · rcases List.mem_cons.mp hp with h | h
        · exact Or.inl (h ▸ List.mem_cons_self _ _)
        · rcases h5 p h with h' | h'
          · exact Or.inl (List.mem_cons_of_mem _ h')
          · exact Or.inr h'

/-! ### Chain-removal lemmas -/

theorem chainRemove_eq_none {key : K} {c : List (K × V)} :
    chainRemove key c = none ↔ key ∉ c.map Prod.fst := by
  induction c with
  | nil => simp [chainRemove]
  | cons p rest ih =>
    obtain ⟨k, v⟩ := p
    by_cases hk : k = key
    · subst hk
      simp [chainRemove]
    · simp [chainRemove, hk, ih, Ne.symm hk]

theorem chainRemove_some_spec {key : K} {c c' : List (K × V)} {v : V}
    (h : chainRemove key c = some (v, c')) :
    chainFind key c = some v ∧ c'.length + 1 = c.length ∧
      (∀ x, x ≠ key → chainFind x c' = chainFind x c) ∧
      (∀ p ∈ c', p ∈ c) ∧
      ∃ pre post, c = pre ++ (key, v) :: post ∧ c' = pre ++ post := by
  induction c generalizing c' with
  | nil => simp [chainRemove] at h
  | cons p rest ih =>
    obtain ⟨k, w⟩ := p
    simp only [chainRemove] at h
    by_cases hk : k = key
    · rw [if_pos hk] at h
      have hv : v = w := by
        injection h with h
        exact (congrArg Prod.fst h).symm
      have hc : c' = rest := by
        injection h with h
        exact (congrArg Prod.snd h).symm
      subst hv
      subst hc
      refine ⟨by simp [chainFind, hk], by simp, fun x hx => ?_,
        fun p hp => List.mem_cons_of_mem _ hp, [], c', by simp [hk], by simp⟩
      simp [chainFind, hk, Ne.symm hx]
    · rw [if_neg hk] at h
      obtain ⟨⟨v'', c''⟩, hc'', heq⟩ := Option.map_eq_some'.mp h
      simp only [Prod.mk.injEq] at heq
      obtain ⟨rfl, rfl⟩ := heq
      obtain ⟨h1, h2, h3, h4, pre, post, hpre, hpost⟩ := ih hc''
      refine ⟨by simp [chainFind, hk, h1], by simp [← h2], fun x hx => ?_, fun p hp => ?_,
        (k, w) :: pre, post, by simp [hpre], by simp [hpost]⟩
      · by_cases hkx : k = x <;> simp [chainFind, hkx, h3 x hx]
      · rcases List.mem_cons.mp hp with h | h
        · exact h ▸ List.mem_cons_self _ _
        · exact List.mem_cons_of_mem _ (h4 p h)

/-! ### Bucket-list lemmas -/

theorem getD_set_self {α : Type} {L : List α} {j : ℕ} (h : j < L.length) (b d : α) :
    (L.set j b).getD j d = b := by
  simp [List.getD_eq_getElem?_getD, List.getElem?_set_self h]

theorem getD_set_ne {α : Type} {L : List α} {i j : ℕ} (h : j ≠ i) (b d : α) :
    (L.set j b).getD i d = L.getD i d := by
  simp [List.getD_eq_getElem?_getD, List.getElem?_set_ne h]

theorem flatten_set_perm {α : Type} (L : List (List α)) :
    ∀ (j : ℕ) (b : List α), j < L.length →
      ((L.set j b).flatten ++ L.getD j []).Perm (L.flatten ++ b) := by
  induction L with
  | nil => intro j b h; simp at h
  | cons x rest ih =>
    intro j b h
    cases j with
    | zero =>
      simp only [List.set_cons_zero, List.flatten_cons, List.getD_cons_zero]
      have p1 : ((b ++ rest.flatten) ++ x).Perm (x ++ (b ++ rest.flatten)) :=
        List.perm_append_comm
      have p3 : (x ++ (b ++ rest.flatten)).Perm (x ++ (rest.flatten ++ b)) :=
        List.Perm.append_left x List.perm_append_comm
      have p5 := p1.trans p3
      rw [← List.append_assoc] at p5
      exact p5
    | succ j =>
      simp only [List.set_cons_succ, List.flatten_cons, List.getD_cons_succ, List.append_assoc]
      exact List.Perm.append_left _ (by simpa using ih j b (by simpa using h))

theorem flatten_set_length {α : Type} {L : List (List α)} {j : ℕ} {b : List α}
    (h : j < L.length) :
    (L.set j b).flatten.length + (L.getD j []).length = L.flatten.length + b.length := by
  have := (flatten_set_perm L j b h).length_eq
  simpa using this

theorem flatten_replicate_nil {α : Type} (n : ℕ) :
    (List.replicate n ([] : List α)).flatten = [] := by
  induction n with
  | zero => simp
  | succ n ih => simp [List.replicate_succ, ih]

/-! ### Bucket-placement lemmas -/

theorem bucketsFrom_cons {hash : K → Option ℤ} {size i : ℕ} {b : List (K × V)}
    {rest : List (List (K × V))} :
    bucketsFrom hash size i (b :: rest) = true ↔
      (∀ p ∈ b, idxNat hash size p.1 = some i) ∧ bucketsFrom hash size (i + 1) rest = true := by
  simp [bucketsFrom, List.all_eq_true]

theorem bucketsFrom_getD {hash : K → Option ℤ} {size : ℕ} :
    ∀ {L : List (List (K × V))} {i0 : ℕ}, bucketsFrom hash size i0 L = true →
      ∀ j, ∀ p ∈ L.getD j [], idxNat hash size p.1 = some (i0 + j) := by
  intro L
  induction L with
  | nil => intro i0 _ j p hp; simp at hp
  | cons b rest ih =>
    intro i0 h j p hp
    obtain ⟨hb, hrest⟩ := bucketsFrom_cons.mp h
    cases j with
    | zero => simpa using hb p (by simpa using hp)
    | succ j =>
      have h2 := ih hrest j p (by simpa using hp)
      rw [show i0 + (j + 1) = i0 + 1 + j by omega]
      exact h2

theorem bucketsFrom_set {hash : K → Option ℤ} {size : ℕ} :
    ∀ {L : List (List (K × V))} {i0 j : ℕ} {b : List (K × V)},
      bucketsFrom hash size i0 L = true →
      (∀ p ∈ b, idxNat hash size p.1 = some (i0 + j)) →
      bucketsFrom hash size i0 (L.set j b) = true := by
  intro L
  induction L with
  | nil => intro i0 j b h _; simpa using h
  | cons c rest ih =>
    intro i0 j b h hb
    obtain ⟨hc, hrest⟩ := bucketsFrom_cons.mp h
    cases j with
    | zero =>
      simp only [List.set_cons_zero]
      exact bucketsFrom_cons.mpr ⟨fun p hp => by simpa using hb p hp, hrest⟩
    | succ j =>
      simp only [List.set_cons_succ]
      refine bucketsFrom_cons.mpr ⟨hc, ih hrest fun p hp => ?_⟩
      have h2 := hb p hp
      rw [show i0 + (j + 1) = i0 + 1 + j by omega] at h2
      exact h2

theorem bucketsFrom_replicate {hash : K → Option ℤ} {size : ℕ} :
    ∀ (n i0 : ℕ), bucketsFrom hash size i0 (List.replicate n ([] : List (K × V))) = true := by
  intro n
  induction n with
  | zero => intro i0; simp [bucketsFrom]
  | succ n ih =>
    intro i0
    simp only [List.replicate_succ]
    exact bucketsFrom_cons.mpr ⟨by simp, ih (i0 + 1)⟩

theorem mem_flatten_idx {hash : K → Option ℤ} {size : ℕ} :
    ∀ {L : List (List (K × V))} {i0 : ℕ}, bucketsFrom hash size i0 L = true →
      ∀ p ∈ L.flatten, ∃ m, idxNat hash size p.1 = some m ∧ i0 ≤ m := by
  intro L
  induction L with
  | nil => intro i0 _ p hp; simp at hp
  | cons b rest ih =>
    intro i0 h p hp
    obtain ⟨hb, hrest⟩ := bucketsFrom_cons.mp h
    have hp' : p ∈ b ++ rest.flatten := by
      rw [← List.flatten_cons]
      exact hp
    rcases List.mem_append.mp hp' with hmem | hmem
    · exact ⟨i0, hb p hmem, le_refl i0⟩
    · obtain ⟨m, hm, hge⟩ := ih hrest p hmem
      exact ⟨m, hm, by omega⟩

theorem chainFind_flatten_of_idx_lt {hash : K → Option ℤ} {size : ℕ}
    {L : List (List (K × V))} {i0 : ℕ} (h : bucketsFrom hash size i0 L = true)
    {key : K} {n : ℕ} (hkey : idxNat hash size key = some n) (hn : n < i0) :
    chainFind key L.flatten = none := by
  rw [chainFind_eq_none]
  intro hmem
  obtain ⟨p, hp, hfst⟩ := List.mem_map.mp hmem
  obtain ⟨m, hm, hge⟩ := mem_flatten_idx h p hp
  rw [hfst, hkey] at hm
  have : n = m := by simpa using hm
  omega

theorem chainFind_flatten_localize {hash : K → Option ℤ} {size : ℕ} :
    ∀ (L : List (List (K × V))) (i0 j : ℕ) (key : K),
      bucketsFrom hash size i0 L = true → idxNat hash size key = some (i0 + j) →
      chainFind key L.flatten = chainFind key (L.getD j []) := by
  intro L
  induction L with
  | nil => intro i0 j key _ _; simp
  | cons b rest ih =>
    intro i0 j key h hkey
    obtain ⟨hb, hrest⟩ := bucketsFrom_cons.mp h
    cases j with
    | zero =>
      simp only [List.flatten_cons, List.getD_cons_zero]
      cases hfind : chainFind key b with
      | some v => exact chainFind_append_some hfind
      | none =>
        rw [chainFind_append_none hfind]
        exact chainFind_flatten_of_idx_lt hrest (by simpa using hkey) (by omega)
    | succ j =>
      simp only [List.flatten_cons, List.getD_cons_succ]
      have hbnone : chainFind key b = none := by
        rw [chainFind_eq_none]
        intro hmem
        obtain ⟨p, hp, hfst⟩ := List.mem_map.mp hmem
        have h2 := hb p hp
        rw [hfst, hkey] at h2
        have : i0 + (j + 1) = i0 := by simpa using h2.symm
        omega
      rw [chainFind_append_none hbnone]
      have h3 : idxNat hash size key = some (i0 + 1 + j) := by
        rw [hkey]
        congr 1
        omega
      exact ih (i0 + 1) j key hrest h3

/-! ### Table-level lookup lemmas -/

theorem entryCount_eq_length_items (t : HashTable K V) :
    entryCount t = (items t).length := by
  simp [entryCount, items, List.length_flatten]

theorem mem_items_iff_lookup {t : HashTable K V} {key : K} {v : V}
    (hn : (keys t).Nodup) : (key, v) ∈ items t ↔ lookupTable t key = some v :=
  ⟨fun h => chainFind_of_mem_nodup hn h, fun h => chainFind_some_mem h⟩

theorem lookupTable_eq_none_unhashable {hash : K → Option ℤ} {t : HashTable K V}
    (hall : ∀ p ∈ items t, (hash p.1).isSome = true) {key : K}
    (hk : hash key = none) : lookupTable t key = none := by
  rw [lookupTable, chainFind_eq_none]
  intro hmem
  obtain ⟨p, hp, hfst⟩ := List.mem_map.mp hmem
  have h2 := hall p hp
  rw [hfst, hk] at h2
  simp at h2

theorem lookupTable_eq_bucket {hash : K → Option ℤ} {t : HashTable K V}
    (hb : bucketsFrom hash t.size 0 t.table = true) {key : K} {j : ℕ}
    (hj : idxNat hash t.size key = some j) :
    lookupTable t key = chainFind key (t.table.getD j []) :=
  chainFind_flatten_localize t.table 0 j key hb (by simpa using hj)

theorem bucket_keys_nodup {L : List (List (K × V))}
    (hn : (L.flatten.map Prod.fst).Nodup) (j : ℕ) :
    ((L.getD j []).map Prod.fst).Nodup := by
  by_cases hj : j < L.length
  · have hmem : L.getD j [] ∈ L := by
      rw [List.getD_eq_getElem?_getD, List.getElem?_eq_getElem hj]
      exact List.getElem_mem hj
    have hsub : (L.getD j []).Sublist L.flatten := List.sublist_flatten_of_mem hmem
    exact (hsub.map Prod.fst).nodup hn
  · rw [List.getD_eq_getElem?_getD, List.getElem?_eq_none (le_of_not_lt hj)]
    simp

theorem bucket_mem_items {L : List (List (K × V))} {j : ℕ} {p : K × V}
    (hp : p ∈ L.getD j []) : p ∈ L.flatten := by
  by_cases hj : j < L.length
  · have hmem : L.getD j [] ∈ L := by
      rw [List.getD_eq_getElem?_getD, List.getElem?_eq_getElem hj]
      exact List.getElem_mem hj
    exact List.mem_flatten.mpr ⟨_, hmem, hp⟩
  · rw [List.getD_eq_getElem?_getD, List.getElem?_eq_none (le_of_not_lt hj)] at hp
    simp at hp

/-- Convenient projections of `Inv`. -/
theorem Inv.len {hash : K → Option ℤ} {t : HashTable K V} (h : Inv hash t) :
    t.table.length = t.size := h.1
theorem Inv.pow {hash : K → Option ℤ} {t : HashTable K V} (h : Inv hash t) :
    isPowTwo t.size = true := h.2.1
theorem Inv.cnt {hash : K → Option ℤ} {t : HashTable K V} (h : Inv hash t) :
    t.count = entryCount t := h.2.2.1
theorem Inv.thr {hash : K → Option ℤ} {t : HashTable K V} (h : Inv hash t) :
    t.threshold = pyThreshold t.size t.loadFactor := h.2.2.2.1
theorem Inv.nod {hash : K → Option ℤ} {t : HashTable K V} (h : Inv hash t) :
    (keys t).Nodup := h.2.2.2.2.1
theorem Inv.buck {hash : K → Option ℤ} {t : HashTable K V} (h : Inv hash t) :
    bucketsFrom hash t.size 0 t.table = true := h.2.2.2.2.2.1
theorem Inv.hsh {hash : K → Option ℤ} {t : HashTable K V} (h : Inv hash t) :
    ∀ p ∈ items t, (hash p.1).isSome = true := h.2.2.2.2.2.2
theorem Inv.pos {hash : K → Option ℤ} {t : HashTable K V} (h : Inv hash t) :
    0 < t.size := isPowTwo_pos h.pow

/-! ### The insertion step after the growth check -/

theorem putCore_spec {hash : K → Option ℤ} {t1 : HashTable K V} {key : K} {value : V} {h : ℤ}
    (hInv : Inv hash t1) (hh : hash key = some h) :
    ∃ t', putCore hash t1 key value = some (Except.ok t') ∧
      Inv hash t' ∧
      t'.size = t1.size ∧ t'.loadFactor = t1.loadFactor ∧ t'.threshold = t1.threshold ∧
      lookupTable t' key = some value ∧
      (∀ x, x ≠ key → lookupTable t' x = lookupTable t1 x) ∧
      t'.count = t1.count + (if (lookupTable t1 key).isSome then 0 else 1) := by
  obtain ⟨hlen, hpow, hcnt, hthr, hnod, hbuck, hhash⟩ := hInv
  have hs : 0 < t1.size := isPowTwo_pos hpow
  obtain ⟨hidx, hlt⟩ := idxNat_spec hs hh
  set j : ℕ := (h % (t1.size : ℤ)).toNat with hj
  have hjlen : j < t1.table.length := by rw [hlen]; exact hlt
  set bucket : List (K × V) := t1.table.getD j [] with hbdef
  have hlocal : lookupTable t1 key = chainFind key bucket := lookupTable_eq_bucket hbuck hidx
  have hbmem : ∀ p ∈ bucket, idxNat hash t1.size p.1 = some j := by
    intro p hp
    have h2 := bucketsFrom_getD hbuck j p hp
    simpa using h2
  have hpyidx : pyIdx hash t1.size key = some (h % (t1.size : ℤ)) := by simp [pyIdx, hh]
  have e1 : entryCount t1 = t1.table.flatten.length := by
    simp [entryCount, List.length_flatten]
  cases hupd : chainUpdate key value bucket with
  | some newB =>
    obtain ⟨hkeys, hlenB, hfindk, hfindo, hsubB⟩ := chainUpdate_some_spec hupd
    set L' : List (List (K × V)) := t1.table.set j newB with hL'
    have hbuck' : bucketsFrom hash t1.size 0 L' = true := by
      refine bucketsFrom_set hbuck fun p hp => ?_
      rcases hsubB p hp with h' | h'
      · simpa using hbmem p h'
      · subst h'
        simpa using hidx
    have hflen := flatten_set_length (L := t1.table) (b := newB) hjlen
    rw [← hL', ← hbdef] at hflen
    have hperm := (flatten_set_perm t1.table j newB hjlen).map Prod.fst
    simp only [List.map_append] at hperm
    rw [hkeys] at hperm
    have hcan := (List.perm_append_right_iff _).mp hperm
    have hnod' : (L'.flatten.map Prod.fst).Nodup := hcan.nodup_iff.mpr hnod
    have hhash' : ∀ p ∈ L'.flatten, (hash p.1).isSome = true := by
      intro p hp
      have hp2 : p ∈ t1.table.flatten ++ newB :=
        (flatten_set_perm t1.table j newB hjlen).mem_iff.mp (List.mem_append_left _ hp)
      rcases List.mem_append.mp hp2 with h' | h'
      · exact hhash p h'
      · rcases hsubB p h' with h'' | h''
        · exact hhash p (bucket_mem_items h'')
        · subst h''
          simp [hh]
    have hkeyin : (lookupTable t1 key).isSome = true := by
      rw [hlocal]
      have hkeymem : key ∈ bucket.map Prod.fst := by
        by_contra hnm
        rw [chainUpdate_eq_none.mpr hnm] at hupd
        simp at hupd
      cases hfb : chainFind key bucket with
      | some v => simp
      | none => exact absurd (chainFind_eq_none.mp hfb) (by simpa using hkeymem)
    refine ⟨{ t1 with table := L' }, ?_, ⟨?_, hpow, ?_, hthr, hnod', hbuck', hhash'⟩,
      rfl, rfl, rfl, ?_, ?_, ?_⟩
    · show putCore hash t1 key value = some (Except.ok _)
      simp only [putCore, hpyidx]
      rw [← hj, ← hbdef, hupd]
    · simp [hL', hlen]
    · show t1.count = entryCount { t1 with table := L' }
      have e2 : entryCount { t1 with table := L' } = L'.flatten.length := by
        simp [entryCount, List.length_flatten]
      omega
    · show lookupTable { t1 with table := L' } key = some value
      have := lookupTable_eq_bucket (t := { t1 with table := L' }) hbuck' hidx
      rw [this, hL']
      rw [getD_set_self hjlen]
      exact hfindk
    · intro x hx
      cases hhx : hash x with
      | none =>
        rw [lookupTable_eq_none_unhashable hhash' hhx,
          lookupTable_eq_none_unhashable hhash hhx]
      | some hxv =>
        obtain ⟨hidxx, hltx⟩ := idxNat_spec hs hhx
        rw [lookupTable_eq_bucket (t := { t1 with table := L' }) hbuck' hidxx,
          lookupTable_eq_bucket hbuck hidxx, hL']
        by_cases hjj : (hxv % (t1.size : ℤ)).toNat = j
        · rw [hjj, getD_set_self hjlen, ← hbdef]
          exact hfindo x hx
        · rw [getD_set_ne (fun hne => hjj hne.symm)]
    · simp [hkeyin]
  | none =>
    have hkeyout : key ∉ bucket.map Prod.fst := chainUpdate_eq_none.mp hupd
    have hfresh : lookupTable t1 key = none := by
      rw [hlocal]
      exact chainFind_eq_none.mpr hkeyout
    set newB : List (K × V) := bucket ++ [(key, value)] with hnewB
    set L' : List (List (K × V)) := t1.table.set j newB with hL'
    have hbuck' : bucketsFrom hash t1.size 0 L' = true := by
      refine bucketsFrom_set hbuck fun p hp => ?_
      rcases List.mem_append.mp hp with h' | h'
      · simpa using hbmem p h'
      · have : p = (key, value) := by simpa using h'
        subst this
        simpa using hidx
    have hflen := flatten_set_length (L := t1.table) (b := newB) hjlen
    rw [← hL', ← hbdef] at hflen
    have hperm := (flatten_set_perm t1.table j newB hjlen).map Prod.fst
    simp only [List.map_append, hnewB] at hperm
    have hshift : (t1.table.flatten.map Prod.fst ++ (bucket.map Prod.fst ++ [key])).Perm
        ((t1.table.flatten.map Prod.fst ++ [key]) ++ bucket.map Prod.fst) := by
      simp only [List.append_assoc]
      exact List.Perm.append_left _ List.perm_append_comm
    have hcan := (List.perm_append_right_iff _).mp (hperm.trans hshift)
    have hnodkey : key ∉ t1.table.flatten.map Prod.fst := by
      exact chainFind_eq_none.mp hfresh
    have hnod' : (L'.flatten.map Prod.fst).Nodup := by
      refine hcan.nodup_iff.mpr ?_
      rw [List.nodup_append]
      exact ⟨hnod, by simp, by simpa [List.disjoint_singleton] using hnodkey⟩
    have hhash' : ∀ p ∈ L'.flatten, (hash p.1).isSome = true := by
      intro p hp
      have hp2 : p ∈ t1.table.flatten ++ newB :=
        (flatten_set_perm t1.table j newB hjlen).mem_iff.mp (List.mem_append_left _ hp)
      rcases List.mem_append.mp hp2 with h' | h'
      · exact hhash p h'
      · rcases List.mem_append.mp (hnewB ▸ h') with h'' | h''
        · exact hhash p (bucket_mem_items h'')
        · have : p = (key, value) := by simpa using h''
          subst this
          simp [hh]
    refine ⟨{ t1 with table := L', count := t1.count + 1 }, ?_,
      ⟨?_, hpow, ?_, hthr, hnod', hbuck', hhash'⟩, rfl, rfl, rfl, ?_, ?_, ?_⟩
    · show putCore hash t1 key value = some (Except.ok _)
      simp only [putCore, hpyidx]
      rw [← hj, ← hbdef, hupd]
    · simp [hL', hlen]
    · show t1.count + 1 = entryCount { t1 with table := L', count := t1.count + 1 }
      have e2 : entryCount { t1 with table := L', count := t1.count + 1 }
          = L'.flatten.length := by
        simp [entryCount, List.length_flatten]
      have e3 : newB.length = bucket.length + 1 := by simp [hnewB]
      omega
    · show lookupTable { t1 with table := L', count := t1.count + 1 } key = some value
      have := lookupTable_eq_bucket
        (t := { t1 with table := L', count := t1.count + 1 }) hbuck' hidx
      rw [this, hL', getD_set_self hjlen, hnewB,
        chainFind_append_none (chainFind_eq_none.mpr hkeyout)]
      simp [chainFind]
    · intro x hx
      cases hhx : hash x with
      | none =>
        rw [lookupTable_eq_none_unhashable hhash' hhx,
          lookupTable_eq_none_unhashable hhash hhx]
      | some hxv =>
        obtain ⟨hidxx, hltx⟩ := idxNat_spec hs hhx
        rw [lookupTable_eq_bucket
          (t := { t1 with table := L', count := t1.count + 1 }) hbuck' hidxx,
          lookupTable_eq_bucket hbuck hidxx, hL']
        by_cases hjj : (hxv % (t1.size : ℤ)).toNat = j
        · rw [hjj, getD_set_self hjlen, ← hbdef, hnewB]
          cases hfb : chainFind x bucket with
          | some v => exact chainFind_append_some hfb
          | none =>
            rw [chainFind_append_none hfb]
            have hkx : ¬key = x := fun hc => hx hc.symm
            simp [chainFind, hkx, hfb]
        · rw [getD_set_ne (fun hne => hjj hne.symm)]
    · simp [hfresh]

/-! ### The rehash loop -/

theorem reinsertWith_ok {hash : K → Option ℤ}
    {p : HashTable K V → K → V → PyRes (HashTable K V) (HashTable K V)} {B : ℕ}
    (hp : PutSpec hash p B) :
    ∀ (l : List (K × V)) (s : HashTable K V),
      Inv hash s → (l.map Prod.fst).Nodup →
      (∀ q ∈ l, (hash q.1).isSome = true) →
      (∀ q ∈ l, lookupTable s q.1 = none) →
      entryCount s + l.length ≤ B →
      ∃ s', reinsertWith p l s = some (Except.ok s') ∧ Inv hash s' ∧
        s'.loadFactor = s.loadFactor ∧
        (∀ x, lookupTable s' x = (chainFind x l).or (lookupTable s x)) ∧
        entryCount s' = entryCount s + l.length ∧
        (8 ≤ s.size → 8 ≤ s'.size) := by
  intro l
  induction l with
  | nil =>
    intro s hInv _ _ _ _
    exact ⟨s, rfl, hInv, rfl, fun x => by simp [chainFind], by simp, fun hx => hx⟩
  | cons q rest ih =>
    obtain ⟨k, v⟩ := q
    intro s hInv hnd hhsh hfresh hbud
    have hk : (hash k).isSome = true := hhsh (k, v) (List.mem_cons_self _ _)
    obtain ⟨hv, hhv⟩ := Option.isSome_iff_exists.mp hk
    have hf : lookupTable s k = none := hfresh (k, v) (List.mem_cons_self _ _)
    have hlt : entryCount s < B := by
      have := hbud
      simp only [List.length_cons] at this
      omega
    obtain ⟨s1, hps, hInv1, hlf1, hlook1, hother1, hcnt1, hsz1⟩ :=
      hp s k v hv hInv hhv hf hlt
    have hknotin : k ∉ rest.map Prod.fst := by
      have := hnd
      simp only [List.map_cons, List.nodup_cons] at this
      exact this.1
    obtain ⟨s', hrest, hInv', hlf', hlook', hcnt', hsz'⟩ := ih s1 hInv1
      (by simpa using hnd.of_cons)
      (fun q hq => hhsh q (List.mem_cons_of_mem _ hq))
      (fun q hq => by
        have hne : q.1 ≠ k := by
          rintro rfl
          exact hknotin (List.mem_map_of_mem Prod.fst hq)
        rw [hother1 q.1 hne]
        exact hfresh q (List.mem_cons_of_mem _ hq))
      (by simp only [List.length_cons] at hbud; omega)
    refine ⟨s', ?_, hInv', hlf'.trans hlf1, ?_, ?_, fun hx => hsz' (hsz1 hx)⟩
    · show reinsertWith p ((k, v) :: rest) s = some (Except.ok s')
      rw [reinsertWith, hps]
      exact hrest
    · intro x
      rw [hlook' x]
      by_cases hxk : x = k
      · subst hxk
        rw [chainFind_eq_none.mpr hknotin, hlook1]
        simp [chainFind]
      · have hke : ¬k = x := fun hc => hxk hc.symm
        rw [hother1 x hxk]
        simp [chainFind, hke]
    · rw [hcnt', hcnt1]
      simp only [List.length_cons]
      omega

theorem resizeWith_ok {hash : K → Option ℤ} {t : HashTable K V}
    {p : HashTable K V → K → V → PyRes (HashTable K V) (HashTable K V)} {B : ℕ}
    (hp : PutSpec hash p B) (hInv : Inv hash t) {newSize : ℕ}
    (hns : isPowTwo newSize = true) (hbud : entryCount t ≤ B) :
    ∃ t', resizeWith p t newSize = some (Except.ok t') ∧ Inv hash t' ∧
      t'.loadFactor = t.loadFactor ∧
      (∀ x, lookupTable t' x = lookupTable t x) ∧
      entryCount t' = entryCount t ∧
      (8 ≤ newSize → 8 ≤ t'.size) := by
  set base : HashTable K V := resizeBase t newSize with hbase
  have hInvBase : Inv hash base := by
    refine ⟨by simp [hbase, resizeBase], hns, ?_, rfl, ?_, ?_, ?_⟩
    · simp [hbase, resizeBase, entryCount]
    · simp [keys, items, hbase, resizeBase, flatten_replicate_nil]
    · simpa [hbase, resizeBase] using
        (bucketsFrom_replicate newSize 0 :
          bucketsFrom hash newSize 0 (List.replicate newSize ([] : List (K × V))) = true)
    · intro q hq
      simp [items, hbase, resizeBase, flatten_replicate_nil] at hq
  have hlookBase : ∀ x, lookupTable base x = none := by
    intro x
    simp [lookupTable, items, hbase, resizeBase, flatten_replicate_nil, chainFind]
  obtain ⟨t', hre, hInv', hlf', hlook', hcnt', hsz'⟩ := reinsertWith_ok hp (items t) base
    hInvBase hInv.nod hInv.hsh (fun q _ => hlookBase q.1)
    (by
      have := entryCount_eq_length_items t
      have hc0 : entryCount base = 0 := by simp [hbase, resizeBase, entryCount]
      omega)
  refine ⟨t', ?_, hInv', hlf', ?_, ?_, ?_⟩
  · rw [resizeWith, if_pos hns]
    exact hre
  · intro x
    rw [hlook' x, hlookBase x, lookupTable]
    simp
  · have hc0 : entryCount base = 0 := by simp [hbase, resizeBase, entryCount]
    have := entryCount_eq_length_items t
    omega
  · intro h8
    exact hsz' (by simp [hbase, resizeBase]; omega)

/-! ### The fueled `put` -/

theorem put_ok {hash : K → Option ℤ} :
    ∀ (f : ℕ) (t : HashTable K V) (key : K) (value : V) (hv : ℤ),
      Inv hash t → hash key = some hv → entryCount t < f →
      ∃ t', put hash f t key value = some (Except.ok t') ∧ Inv hash t' ∧
        t'.loadFactor = t.loadFactor ∧
        lookupTable t' key = some value ∧
        (∀ x, x ≠ key → lookupTable t' x = lookupTable t x) ∧
        entryCount t' = entryCount t + (if (lookupTable t key).isSome then 0 else 1) ∧
        (8 ≤ t.size → 8 ≤ t'.size) := by
  intro f
  induction f with
  | zero => intro t key value hv _ _ hlt; omega
  | succ f ih =>
    intro t key value hv hInv hh hlt
    have hPS : PutSpec (V := V) hash (put hash f) f := by
      intro s k v kv hInvS hk hfresh hcnt
      obtain ⟨s', h1, h2, h3, h4, h5, h6, h7⟩ := ih s k v kv hInvS hk hcnt
      rw [hfresh] at h6
      simp only [Option.isSome_none, Bool.false_eq_true, if_neg, if_false] at h6
      exact ⟨s', h1, h2, h3, h4, h5, by omega, h7⟩
    by_cases hgrow : t.threshold ≤ (t.count : ℤ)
    · obtain ⟨t1, hres, hInv1, hlf1, hlook1, hcnt1, hsz1⟩ :=
        resizeWith_ok hPS hInv (isPowTwo_double hInv.pow) (by omega)
      obtain ⟨t', hcore, hInv', hsz', hlf', hthr', hlookk, hlooko, hcntc⟩ :=
        putCore_spec hInv1 hh
      refine ⟨t', ?_, hInv', hlf'.trans hlf1, hlookk, ?_, ?_, ?_⟩
      · show put hash (f + 1) t key value = some (Except.ok t')
        rw [put, if_pos hgrow, hres]
        exact hcore
      · intro x hx
        rw [hlooko x hx, hlook1 x]
      · have hic : entryCount t' = entryCount t1
            + (if (lookupTable t1 key).isSome then 0 else 1) := by
          have e1 := hInv'.cnt
          have e2 := hInv1.cnt
          set n : ℕ := if (lookupTable t1 key).isSome then 0 else 1 with hn
          omega
        rw [hic, hlook1 key, hcnt1]
      · intro h8
        refine hsz'.symm ▸ hsz1 ?_
        omega
    · obtain ⟨t', hcore, hInv', hsz', hlf', hthr', hlookk, hlooko, hcntc⟩ :=
        putCore_spec hInv hh
      refine ⟨t', ?_, hInv', hlf', hlookk, hlooko, ?_, fun h8 => hsz' ▸ h8⟩
      · show put hash (f + 1) t key value = some (Except.ok t')
        rw [put, if_neg hgrow]
        exact hcore
      · have e1 := hInv'.cnt
        have e2 := hInv.cnt
        set n : ℕ := if (lookupTable t key).isSome then 0 else 1 with hn
        omega

theorem putSpec_put {hash : K → Option ℤ} (f : ℕ) : PutSpec (V := V) hash (put hash f) f := by
  intro s k v hv hInvS hk hfresh hcnt
  obtain ⟨s', h1, h2, h3, h4, h5, h6, h7⟩ := put_ok f s k v hv hInvS hk hcnt
  rw [hfresh] at h6
  simp only [Option.isSome_none, Bool.false_eq_true, if_false] at h6
  exact ⟨s', h1, h2, h3, h4, h5, by omega, h7⟩

/-- `put` without growth: when `count < threshold` the growth check does not
fire and the table geometry (`size`, `threshold`, `load_factor`) is
untouched. -/
theorem put_no_grow {hash : K → Option ℤ} {t : HashTable K V} {key : K} {value : V} {hv : ℤ}
    (hInv : Inv hash t) (hh : hash key = some hv) (hng : (t.count : ℤ) < t.threshold) (f : ℕ) :
    ∃ t', put hash (f + 1) t key value = some (Except.ok t') ∧ Inv hash t' ∧
      t'.size = t.size ∧ t'.loadFactor = t.loadFactor ∧ t'.threshold = t.threshold ∧
      lookupTable t' key = some value ∧
      (∀ x, x ≠ key → lookupTable t' x = lookupTable t x) ∧
      t'.count = t.count + (if (lookupTable t key).isSome then 0 else 1) := by
  obtain ⟨t', hcore, hInv', hsz', hlf', hthr', hlookk, hlooko, hcntc⟩ := putCore_spec hInv hh
  refine ⟨t', ?_, hInv', hsz', hlf', hthr', hlookk, hlooko, hcntc⟩
  rw [put, if_neg (not_le.mpr hng)]
  exact hcore

/-- Rehashing a batch of fresh entries whose final count stays below the
threshold never re-triggers a resize: the geometry is stable. -/
theorem reinsert_stable {hash : K → Option ℤ} (f : ℕ) :
    ∀ (l : List (K × V)) (s : HashTable K V),
      Inv hash s → (l.map Prod.fst).Nodup →
      (∀ q ∈ l, (hash q.1).isSome = true) →
      (∀ q ∈ l, lookupTable s q.1 = none) →
      ((entryCount s : ℤ) + l.length ≤ s.threshold) →
      ∃ s', reinsertWith (put hash (f + 1)) l s = some (Except.ok s') ∧ Inv hash s' ∧
        s'.size = s.size ∧ s'.loadFactor = s.loadFactor ∧ s'.threshold = s.threshold ∧
        (∀ x, lookupTable s' x = (chainFind x l).or (lookupTable s x)) ∧
        entryCount s' = entryCount s + l.length := by
  intro l
  induction l with
  | nil =>
    intro s hInv _ _ _ _
    exact ⟨s, rfl, hInv, rfl, rfl, rfl, fun x => by simp [chainFind], by simp⟩
  | cons q rest ih =>
    obtain ⟨k, v⟩ := q
    intro s hInv hnd hhsh hfresh hbud
    have hk : (hash k).isSome = true := hhsh (k, v) (List.mem_cons_self _ _)
    obtain ⟨hv, hhv⟩ := Option.isSome_iff_exists.mp hk
    have hf : lookupTable s k = none := hfresh (k, v) (List.mem_cons_self _ _)
    have hng : (s.count : ℤ) < s.threshold := by
      have hc := hInv.cnt
      simp only [List.length_cons] at hbud
      omega
    obtain ⟨s1, hps, hInv1, hsz1, hlf1, hthr1, hlook1, hother1, hcnt1⟩ :=
      put_no_grow hInv hhv hng f
    rw [hf] at hcnt1
    simp only [Option.isSome_none, Bool.false_eq_true, if_false] at hcnt1
    have he1 : entryCount s1 = entryCount s + 1 := by
      have := hInv.cnt
      have := hInv1.cnt
      omega
    have hknotin : k ∉ rest.map Prod.fst := by
      have := hnd
      simp only [List.map_cons, List.nodup_cons] at this
      exact this.1
    obtain ⟨s', hrest, hInv', hsz', hlf', hthr', hlook', hcnt'⟩ := ih s1 hInv1
      (by simpa using hnd.of_cons)
      (fun q hq => hhsh q (List.mem_cons_of_mem _ hq))
      (fun q hq => by
        have hne : q.1 ≠ k := by
          rintro rfl
          exact hknotin (List.mem_map_of_mem Prod.fst hq)
        rw [hother1 q.1 hne]
        exact hfresh q (List.mem_cons_of_mem _ hq))
      (by
        simp only [List.length_cons] at hbud
        rw [he1, hthr1]
        push_cast
        omega)
    refine ⟨s', ?_, hInv', hsz'.trans hsz1, hlf'.trans hlf1, hthr'.trans hthr1, ?_, ?_⟩
    · show reinsertWith (put hash (f + 1)) ((k, v) :: rest) s = some (Except.ok s')
      rw [reinsertWith, hps]
      exact hrest
    · intro x
      rw [hlook' x]
      by_cases hxk : x = k
      · subst hxk
        rw [chainFind_eq_none.mpr hknotin, hlook1]
        simp [chainFind]
      · have hke : ¬k = x := fun hc => hxk hc.symm
        rw [hother1 x hxk]
        simp [chainFind, hke]
    · rw [hcnt', he1]
      simp only [List.length_cons]
      omega

/-! ### Threshold arithmetic -/

theorem pyThreshold_eq_floor {size : ℕ} {lf : ℚ} (h : 0 ≤ lf) :
    pyThreshold size lf = ⌊(size : ℚ) * lf⌋ := by
  have hnum : 0 ≤ lf.num := Rat.num_nonneg.mpr h
  have h1 : 0 ≤ (size : ℤ) * lf.num := mul_nonneg (by positivity) hnum
  have h2 : (0 : ℤ) ≤ (lf.den : ℤ) := by positivity
  rw [pyThreshold, Int.tdiv_eq_ediv h1 h2]
  rw [show (size : ℚ) * lf = (((size : ℤ) * lf.num : ℤ) : ℚ) / ((lf.den : ℕ) : ℚ) by
    rw [eq_div_iff (by positivity : ((lf.den : ℕ) : ℚ) ≠ 0)]
    push_cast
    rw [mul_assoc, Rat.mul_den_eq_num]]
  rw [Rat.floor_intCast_div_natCast]

theorem pyThreshold_nonpos_of_num_neg {size : ℕ} {lf : ℚ} (h : lf.num < 0) :
    pyThreshold size lf ≤ 0 := by
  rw [pyThreshold]
  rcases Nat.eq_zero_or_pos size with hz | hpos
  · subst hz
    simp
  · have h1 : (size : ℤ) * lf.num ≤ 0 :=
      mul_nonpos_of_nonneg_of_nonpos (by positivity) (le_of_lt h)
    have h2 : (0 : ℤ) ≤ (lf.den : ℤ) := by positivity
    have h3 : 0 ≤ (-((size : ℤ) * lf.num)).tdiv (lf.den : ℤ) :=
      Int.tdiv_nonneg (by omega) h2
    have h4 : (-((size : ℤ) * lf.num)).tdiv (lf.den : ℤ)
        = -(((size : ℤ) * lf.num).tdiv (lf.den : ℤ)) := Int.neg_tdiv _ _
    omega

/-- A triggered shrink cannot re-trigger a growth while rehashing: the
post-removal count fits under the threshold of the halved size. -/
theorem shrink_no_retrigger {size : ℕ} {lf : ℚ} {n : ℕ}
    (heven : 2 ∣ size)
    (hcond : (n : ℤ) < Int.fdiv (pyThreshold size lf) 4) :
    (n : ℤ) ≤ pyThreshold (size / 2) lf := by
  set T : ℤ := pyThreshold size lf with hT
  have hfd : Int.fdiv T 4 = T / 4 := Int.fdiv_eq_ediv T (by norm_num)
  rw [hfd] at hcond
  have hT4 : 4 ≤ T := by omega
  have hlf : 0 ≤ lf := by
    by_contra hc
    have hneg : lf.num < 0 := by
      rcases lt_or_le lf.num 0 with h | h
      · exact h
      · exact absurd (Rat.num_nonneg.mp h) hc
    have h9 : pyThreshold size lf ≤ 0 := pyThreshold_nonpos_of_num_neg hneg
    omega
  have hTf : T = ⌊(size : ℚ) * lf⌋ := pyThreshold_eq_floor hlf
  obtain ⟨m, hm⟩ := heven
  have hhalf : size / 2 = m := by omega
  have hcast : ((size / 2 : ℕ) : ℚ) * lf = ((size : ℚ) * lf) / 2 := by
    rw [hhalf, hm]
    push_cast
    ring
  rw [pyThreshold_eq_floor hlf, hcast]
  set q : ℚ := (size : ℚ) * lf with hq
  have hTq : (T : ℚ) ≤ q := hTf ▸ Int.floor_le q
  have h4n : 4 * (n : ℤ) + 4 ≤ T := by omega
  refine Int.le_floor.mpr ?_
  have hnq : (4 * (n : ℚ) + 4) ≤ q := by
    calc (4 * (n : ℚ) + 4) = ((4 * (n : ℤ) + 4 : ℤ) : ℚ) := by push_cast; ring
      _ ≤ (T : ℚ) := by exact_mod_cast h4n
      _ ≤ q := hTq
  have hn0 : (0 : ℚ) ≤ (n : ℚ) := by positivity
  push_cast
  linarith

theorem half_pow {size : ℕ} (hk : isPowTwo size = true) (h8 : 8 < size) :
    isPowTwo (size / 2) = true ∧ 8 ≤ size / 2 ∧ max 8 (size / 2) = size / 2 ∧
      2 ∣ size := by
  obtain ⟨k, rfl⟩ := (isPowTwo_iff size).mp hk
  have hk4 : 4 ≤ k := by
    by_contra hc
    have hk3 : k ≤ 3 := by omega
    have : (2 : ℕ) ^ k ≤ 2 ^ 3 := Nat.pow_le_pow_right (by norm_num) hk3
    omega
  have hdouble : (2 : ℕ) ^ k = 2 * 2 ^ (k - 1) := by
    rw [← pow_succ']
    congr 1
    omega
  have hhalf : 2 ^ k / 2 = 2 ^ (k - 1) := by omega
  have h8le : 8 ≤ 2 ^ (k - 1) := by
    have : (2 : ℕ) ^ 3 ≤ 2 ^ (k - 1) := Nat.pow_le_pow_right (by norm_num) (by omega)
    omega
  refine ⟨?_, by omega, by omega, ⟨2 ^ (k - 1), hdouble⟩⟩
  rw [hhalf]
  exact (isPowTwo_iff _).mpr ⟨k - 1, rfl⟩

theorem resizeBase_inv {hash : K → Option ℤ} (t : HashTable K V) {newSize : ℕ}
    (hns : isPowTwo newSize = true) : Inv hash (resizeBase t newSize) := by
  refine ⟨by simp [resizeBase], hns, ?_, rfl, ?_, ?_, ?_⟩
  · simp [resizeBase, entryCount]
  · simp [keys, items, resizeBase, flatten_replicate_nil]
  · simpa [resizeBase] using
      (bucketsFrom_replicate newSize 0 :
        bucketsFrom hash newSize 0 (List.replicate newSize ([] : List (K × V))) = true)
  · intro q hq
    simp [items, resizeBase, flatten_replicate_nil] at hq

theorem resizeBase_lookup (t : HashTable K V) (newSize : ℕ) (x : K) :
    lookupTable (resizeBase t newSize) x = none := by
  simp [lookupTable, items, resizeBase, flatten_replicate_nil, chainFind]

theorem resizeBase_entryCount (t : HashTable K V) (newSize : ℕ) :
    entryCount (resizeBase t newSize) = 0 := by
  simp [resizeBase, entryCount]

/-- `put` with a triggered growth that does not re-trigger while rehashing:
the size exactly doubles. -/
theorem put_grow {hash : K → Option ℤ} {t : HashTable K V} {key : K} {value : V} {hv : ℤ}
    (hInv : Inv hash t) (hh : hash key = some hv) (hg : t.threshold ≤ (t.count : ℤ))
    (hnr : (entryCount t : ℤ) ≤ pyThreshold (t.size * 2) t.loadFactor) (f : ℕ) :
    ∃ t', put hash (f + 2) t key value = some (Except.ok t') ∧ Inv hash t' ∧
      t'.size = t.size * 2 ∧ t'.loadFactor = t.loadFactor ∧
      t'.threshold = pyThreshold (t.size * 2) t.loadFactor ∧
      lookupTable t' key = some value ∧
      (∀ x, x ≠ key → lookupTable t' x = lookupTable t x) ∧
      t'.count = entryCount t + (if (lookupTable t key).isSome then 0 else 1) := by
  have hns : isPowTwo (t.size * 2) = true := isPowTwo_double hInv.pow
  obtain ⟨s', hre, hInvS, hszS, hlfS, hthrS, hlookS, hcntS⟩ := reinsert_stable f
    (items t) (resizeBase t (t.size * 2)) (resizeBase_inv t hns) hInv.nod hInv.hsh
    (fun q _ => resizeBase_lookup t _ q.1)
    (by
      rw [resizeBase_entryCount]
      have := entryCount_eq_length_items t
      show (0 : ℤ) + ((items t).length : ℤ) ≤ pyThreshold (t.size * 2) t.loadFactor
      omega)
  have hlookS' : ∀ x, lookupTable s' x = lookupTable t x := by
    intro x
    rw [hlookS x, resizeBase_lookup]
    simp [lookupTable]
  obtain ⟨t', hcore, hInv', hsz', hlf', hthr', hlookk, hlooko, hcntc⟩ :=
    putCore_spec hInvS hh
  refine ⟨t', ?_, hInv', ?_, ?_, ?_, hlookk, ?_, ?_⟩
  · show put hash (f + 1 + 1) t key value = some (Except.ok t')
    rw [put, if_pos hg, resizeWith, if_pos hns, hre]
    exact hcore
  · rw [hsz', hszS]
    rfl
  · rw [hlf', hlfS]
    rfl
  · rw [hthr', hthrS]
    rfl
  · intro x hx
    rw [hlooko x hx, hlookS' x]
  · have e1 := hInvS.cnt
    have e2 : entryCount s' = 0 + (items t).length := by
      rw [hcntS, resizeBase_entryCount]
    have e3 := entryCount_eq_length_items t
    rw [hcntc, hlookS' key]
    set n : ℕ := if (lookupTable t key).isSome then 0 else 1 with hn
    omega

/-- `delete` on an absent (but hashable) key: the not-found sentinel is
returned and the state is untouched. -/
theorem delete_not_found {hash : K → Option ℤ} {t : HashTable K V} {key : K} {hv : ℤ}
    (hInv : Inv hash t) (hh : hash key = some hv) (habs : lookupTable t key = none)
    (f : ℕ) : delete hash f t key = some (Except.ok (none, t)) := by
  have hs := hInv.pos
  obtain ⟨hidx, hlt⟩ := idxNat_spec hs hh
  have hpyidx : pyIdx hash t.size key = some (hv % (t.size : ℤ)) := by simp [pyIdx, hh]
  have hbfind : chainFind key (t.table.getD (hv % (t.size : ℤ)).toNat []) = none := by
    rw [← lookupTable_eq_bucket hInv.buck hidx]
    exact habs
  have hrem : chainRemove key (t.table.getD (hv % (t.size : ℤ)).toNat []) = none :=
    chainRemove_eq_none.mpr (chainFind_eq_none.mp hbfind)
  simp only [delete, hpyidx]
  rw [hrem]

/-- `delete` on a present key: the first matching entry of the key's bucket
is removed, the value is returned, and the shrink fires exactly when
`size > 8 and count < threshold // 4` holds for the post-removal count, in
which case the size is halved (shrinking never re-triggers a growth). -/
theorem delete_found {hash : K → Option ℤ} {t : HashTable K V} {key : K} {hv : ℤ} {v : V}
    (hInv : Inv hash t) (hh : hash key = some hv) (hfound : lookupTable t key = some v)
    {f : ℕ} (hbud : entryCount t ≤ f) :
    ∃ t', delete hash f t key = some (Except.ok (some v, t')) ∧ Inv hash t' ∧
      t'.loadFactor = t.loadFactor ∧
      lookupTable t' key = none ∧
      (∀ x, x ≠ key → lookupTable t' x = lookupTable t x) ∧
      entryCount t' + 1 = entryCount t ∧
      t'.size = (if 8 < t.size ∧ ((t.count : ℤ) - 1) < Int.fdiv t.threshold 4
        then t.size / 2 else t.size) ∧
      (8 ≤ t.size → 8 ≤ t'.size) := by
  obtain ⟨hlen, hpow, hcnt, hthr, hnod, hbuck, hhash⟩ := hInv
  have hInv0 : Inv hash t := ⟨hlen, hpow, hcnt, hthr, hnod, hbuck, hhash⟩
  have hs : 0 < t.size := isPowTwo_pos hpow
  obtain ⟨hidx, hlt⟩ := idxNat_spec hs hh
  set j : ℕ := (hv % (t.size : ℤ)).toNat with hj
  have hjlen : j < t.table.length := by rw [hlen]; exact hlt
  set bucket : List (K × V) := t.table.getD j [] with hbdef
  have hpyidx : pyIdx hash t.size key = some (hv % (t.size : ℤ)) := by simp [pyIdx, hh]
  have hlocal : lookupTable t key = chainFind key bucket := lookupTable_eq_bucket hbuck hidx
  have hbfind : chainFind key bucket = some v := by rw [← hlocal]; exact hfound
  have hbmem : ∀ p ∈ bucket, idxNat hash t.size p.1 = some j := by
    intro p hp
    have h2 := bucketsFrom_getD hbuck j p hp
    simpa using h2
  have hE1 : 1 ≤ entryCount t := by
    have hmem : (key, v) ∈ items t := chainFind_some_mem hfound
    have := entryCount_eq_length_items t
    have hlenpos : 0 < (items t).length := List.length_pos.mpr (List.ne_nil_of_mem hmem)
    omega
  cases hrem : chainRemove key bucket with
  | none => exact absurd hbfind (by rw [chainFind_eq_none.mpr (chainRemove_eq_none.mp hrem)]; simp)
  | some p0 =>
    obtain ⟨v0, newB⟩ := p0
    obtain ⟨hfind0, hlenB, hother, hsubB, pre, post, hpre, hpost⟩ := chainRemove_some_spec hrem
    have hv0 : v = v0 := by
      have h3 : some v = some v0 := by rw [← hbfind, hfind0]
      exact Option.some.inj h3
    subst hv0
    set L1 : List (List (K × V)) := t.table.set j newB with hL1
    set t1 : HashTable K V := { t with table := L1, count := t.count - 1 } with ht1
    have hperm := (flatten_set_perm t.table j newB hjlen).map Prod.fst
    simp only [List.map_append] at hperm
    have hpb : (bucket.map Prod.fst).Perm (key :: newB.map Prod.fst) := by
      rw [show bucket.map Prod.fst = pre.map Prod.fst ++ key :: post.map Prod.fst by
          rw [hpre]; simp,
        show newB.map Prod.fst = pre.map Prod.fst ++ post.map Prod.fst by
          rw [hpost]; simp]
      exact List.perm_middle
    have hstep : (L1.flatten.map Prod.fst ++ bucket.map Prod.fst).Perm
        (L1.flatten.map Prod.fst ++ ([key] ++ newB.map Prod.fst)) :=
      List.Perm.append_left _ hpb
    have hchain : ((L1.flatten.map Prod.fst ++ [key]) ++ newB.map Prod.fst).Perm
        (t.table.flatten.map Prod.fst ++ newB.map Prod.fst) := by
      rw [List.append_assoc]
      exact hstep.symm.trans hperm
    have hcan := (List.perm_append_right_iff _).mp hchain
    have hnodapp : (L1.flatten.map Prod.fst ++ [key]).Nodup := hcan.nodup_iff.mpr hnod
    have hnod1 : (L1.flatten.map Prod.fst).Nodup := (List.nodup_append.mp hnodapp).1
    have hkeyout : key ∉ L1.flatten.map Prod.fst := by
      have hd := (List.nodup_append.mp hnodapp).2.2
      intro hmem
      exact hd hmem (by simp)
    have hbuck1 : bucketsFrom hash t.size 0 L1 = true := by
      refine bucketsFrom_set hbuck fun p hp => ?_
      simpa using hbmem p (hsubB p hp)
    have hhash1 : ∀ p ∈ L1.flatten, (hash p.1).isSome = true := by
      intro p hp
      have hp2 : p ∈ t.table.flatten ++ newB :=
        (flatten_set_perm t.table j newB hjlen).mem_iff.mp (List.mem_append_left _ hp)
      rcases List.mem_append.mp hp2 with h' | h'
      · exact hhash p h'
      · exact hhash p (bucket_mem_items (hsubB p h'))
    have hflen := flatten_set_length (L := t.table) (b := newB) hjlen
    rw [← hL1, ← hbdef] at hflen
    have hE : entryCount t1 + 1 = entryCount t := by
      have e1 : entryCount t1 = L1.flatten.length := by
        simp [ht1, entryCount, List.length_flatten]
      have e2 : entryCount t = t.table.flatten.length := by
        simp [entryCount, List.length_flatten]
      omega
    have hInv1 : Inv hash t1 := by
      refine ⟨by simp [ht1, hL1, hlen], hpow, ?_, hthr, hnod1, hbuck1, hhash1⟩
      have e1 : entryCount t1 = L1.flatten.length := by
        simp [ht1, entryCount, List.length_flatten]
      have e2 : entryCount t = t.table.flatten.length := by
        simp [entryCount, List.length_flatten]
      show t.count - 1 = entryCount t1
      omega
    have hlook1key : lookupTable t1 key = none := chainFind_eq_none.mpr hkeyout
    have hlook1other : ∀ x, x ≠ key → lookupTable t1 x = lookupTable t x := by
      intro x hx
      cases hhx : hash x with
      | none =>
        rw [lookupTable_eq_none_unhashable hhash1 hhx,
          lookupTable_eq_none_unhashable hhash hhx]
      | some hxv =>
        obtain ⟨hidxx, hltx⟩ := idxNat_spec hs hhx
        rw [lookupTable_eq_bucket (t := t1) hbuck1 hidxx,
          lookupTable_eq_bucket hbuck hidxx]
        show chainFind x (L1.getD (hxv % (t.size : ℤ)).toNat []) = _
        by_cases hjj : (hxv % (t.size : ℤ)).toNat = j
        · rw [hjj, hL1, getD_set_self hjlen, ← hbdef]
          exact hother x hx
        · rw [hL1, getD_set_ne (fun hne => hjj hne.symm)]
    have hcast : ((t.count - 1 : ℕ) : ℤ) = (t.count : ℤ) - 1 := by omega
    by_cases hC : 8 < t.size ∧ ((t.count : ℤ) - 1) < Int.fdiv t.threshold 4
    · obtain ⟨hp2, h8le, hmax, hdvd⟩ := half_pow hpow hC.1
      have hcond1 : (entryCount t1 : ℤ) < Int.fdiv (pyThreshold t.size t.loadFactor) 4 := by
        rw [← hthr]
        have := hInv1.cnt
        show ((entryCount t1 : ℕ) : ℤ) < _
        omega
      have hnr := shrink_no_retrigger hdvd hcond1
      obtain ⟨f', rfl⟩ : ∃ f', f = f' + 1 := ⟨f - 1, by omega⟩
      obtain ⟨s', hre, hInvS, hszS, hlfS, hthrS, hlookS, hcntS⟩ := reinsert_stable f'
        (items t1) (resizeBase t1 (t.size / 2)) (resizeBase_inv t1 hp2) hInv1.nod
        hInv1.hsh (fun q _ => resizeBase_lookup t1 _ q.1)
        (by
          rw [resizeBase_entryCount]
          have := entryCount_eq_length_items t1
          show (0 : ℤ) + ((items t1).length : ℤ) ≤ pyThreshold (t.size / 2) t.loadFactor
          omega)
      have hlookS' : ∀ x, lookupTable s' x = lookupTable t1 x := by
        intro x
        rw [hlookS x, resizeBase_lookup]
        simp [lookupTable]
      refine ⟨s', ?_, hInvS, ?_, ?_, ?_, ?_, ?_, ?_⟩
      · simp only [delete, hpyidx]
        rw [← hj, ← hbdef, hrem]
        show (if 8 < t1.size ∧ (t1.count : ℤ) < Int.fdiv t1.threshold 4 then _ else _) = _
        rw [if_pos (by
          show 8 < t.size ∧ ((t.count - 1 : ℕ) : ℤ) < Int.fdiv t.threshold 4
          exact ⟨hC.1, by rw [hcast]; exact hC.2⟩)]
        show (match resizeWith (put hash (f' + 1)) t1 (max 8 (t1.size / 2)) with
          | none => none
          | some (Except.error e) => some (Except.error e)
          | some (Except.ok t2) => some (Except.ok (some v, t2))) = _
        rw [show max 8 (t1.size / 2) = t.size / 2 from hmax, resizeWith, if_pos hp2, hre]
      · rw [hlfS]
        rfl
      · rw [hlookS' key]
        exact hlook1key
      · intro x hx
        rw [hlookS' x]
        exact hlook1other x hx
      · rw [hcntS, resizeBase_entryCount]
        have := entryCount_eq_length_items t1
        omega
      · rw [if_pos hC, hszS]
        rfl
      · intro h8
        rw [hszS]
        show 8 ≤ t.size / 2
        omega
    · refine ⟨t1, ?_, hInv1, rfl, hlook1key, hlook1other, hE, ?_, ?_⟩
      · simp only [delete, hpyidx]
        rw [← hj, ← hbdef, hrem]
        show (if 8 < t1.size ∧ (t1.count : ℤ) < Int.fdiv t1.threshold 4 then _ else _) = _
        rw [if_neg (by
          show ¬(8 < t.size ∧ ((t.count - 1 : ℕ) : ℤ) < Int.fdiv t.threshold 4)
          rw [hcast]
          exact hC)]
      · rw [if_neg hC]
      · intro h8
        show 8 ≤ t.size
        exact h8

/-! ### `get`, `contains`, and the unhashable-key error paths -/

theorem get_spec {hash : K → Option ℤ} {t : HashTable K V} {key : K} {hv : ℤ}
    (hInv : Inv hash t) (hh : hash key = some hv) (d : V) :
    get hash t key d = Except.ok ((lookupTable t key).getD d) := by
  have hs := hInv.pos
  obtain ⟨hidx, _⟩ := idxNat_spec hs hh
  have hpyidx : pyIdx hash t.size key = some (hv % (t.size : ℤ)) := by simp [pyIdx, hh]
  have hloc := lookupTable_eq_bucket hInv.buck hidx
  simp only [get, hpyidx]
  rw [← hloc]
  cases hl : lookupTable t key <;> simp [hl]

theorem get_err {hash : K → Option ℤ} (t : HashTable K V) {key : K}
    (hk : hash key = none) (d : V) : get hash t key d = Except.error () := by
  simp [get, pyIdx, hk]

theorem contains_spec {hash : K → Option ℤ} {t : HashTable K (Option A)} {key : K} {hv : ℤ}
    (hInv : Inv hash t) (hh : hash key = some hv) :
    contains hash t key = Except.ok ((lookupTable t key).getD none).isSome := by
  rw [contains, get_spec hInv hh]
  rfl

theorem contains_err {hash : K → Option ℤ} (t : HashTable K (Option A)) {key : K}
    (hk : hash key = none) : contains hash t key = Except.error () := by
  rw [contains, get_err t hk]
  rfl

theorem put_err_no_grow {hash : K → Option ℤ} {t : HashTable K V} {key : K} (value : V)
    (hk : hash key = none) (hng : ¬t.threshold ≤ (t.count : ℤ)) (f : ℕ) :
    put hash (f + 1) t key value = some (Except.error t) := by
  rw [put, if_neg hng]
  simp [putCore, pyIdx, hk]

theorem put_err_grow {hash : K → Option ℤ} {t : HashTable K V} {key : K} (value : V)
    (hInv : Inv hash t) (hk : hash key = none) (hg : t.threshold ≤ (t.count : ℤ))
    {f : ℕ} (hbud : entryCount t ≤ f) :
    ∃ s, put hash (f + 1) t key value = some (Except.error s) ∧ Inv hash s ∧
      (∀ x, lookupTable s x = lookupTable t x) ∧ entryCount s = entryCount t ∧
      s.loadFactor = t.loadFactor ∧ (8 ≤ t.size → 8 ≤ s.size) := by
  obtain ⟨t1, hres, hInv1, hlf1, hlook1, hcnt1, hsz1⟩ :=
    resizeWith_ok (putSpec_put f) hInv (isPowTwo_double hInv.pow) hbud
  refine ⟨t1, ?_, hInv1, hlook1, hcnt1, hlf1, fun h8 => hsz1 (by omega)⟩
  rw [put, if_pos hg, hres]
  simp [putCore, pyIdx, hk]

theorem delete_err {hash : K → Option ℤ} (f : ℕ) (t : HashTable K V) {key : K}
    (hk : hash key = none) : delete hash f t key = some (Except.error t) := by
  simp [delete, pyIdx, hk]

/-! ### Fuel monotonicity -/

theorem reinsertWith_mono {p q : HashTable K V → K → V → PyRes (HashTable K V) (HashTable K V)}
    (hpq : ∀ s k v r, p s k v = some r → q s k v = some r) :
    ∀ (l : List (K × V)) (s : HashTable K V) (r : Except (HashTable K V) (HashTable K V)),
      reinsertWith p l s = some r → reinsertWith q l s = some r := by
  intro l
  induction l with
  | nil => intro s r h; exact h
  | cons x rest ih =>
    obtain ⟨k, v⟩ := x
    intro s r h
    rw [reinsertWith] at h ⊢
    cases hps : p s k v with
    | none => rw [hps] at h; simp at h
    | some e =>
      rw [hps] at h
      rw [hpq s k v e hps]
      cases e with
      | error e' => exact h
      | ok s' => exact ih s' r h

theorem resizeWith_mono {p q : HashTable K V → K → V → PyRes (HashTable K V) (HashTable K V)}
    (hpq : ∀ s k v r, p s k v = some r → q s k v = some r)
    {t : HashTable K V} {ns : ℕ} {r : Except (HashTable K V) (HashTable K V)}
    (h : resizeWith p t ns = some r) : resizeWith q t ns = some r := by
  rw [resizeWith] at h ⊢
  by_cases hns : isPowTwo ns = true
  · rw [if_pos hns] at h ⊢
    exact reinsertWith_mono hpq _ _ _ h
  · rw [if_neg hns] at h ⊢
    exact h

theorem put_mono {hash : K → Option ℤ} :
    ∀ (f : ℕ) (t : HashTable K V) (key : K) (value : V) (r : Except _ _),
      put hash f t key value = some r → put hash (f + 1) t key value = some r := by
  intro f
  induction f with
  | zero => intro t k v r h; simp [put] at h
  | succ f ih =>
    intro t k v r h
    rw [put] at h
    rw [put]
    by_cases hg : t.threshold ≤ (t.count : ℤ)
    · rw [if_pos hg] at h ⊢
      cases hres : resizeWith (put hash f) t (t.size * 2) with
      | none => rw [hres] at h; simp at h
      | some e =>
        rw [hres] at h
        rw [resizeWith_mono (fun s k v r => ih s k v r) hres]
        exact h
    · rw [if_neg hg] at h ⊢
      exact h

theorem put_mono_le {hash : K → Option ℤ} {f g : ℕ} (hfg : f ≤ g) {t : HashTable K V}
    {key : K} {value : V} {r : Except _ _} (h : put hash f t key value = some r) :
    put hash g t key value = some r := by
  obtain ⟨d, rfl⟩ := Nat.exists_eq_add_of_le hfg
  clear hfg
  induction d with
  | zero => exact h
  | succ d ihd => exact put_mono _ _ _ _ _ ihd

theorem delete_mono {hash : K → Option ℤ} (f : ℕ) (t : HashTable K V) (key : K)
    (r : Except (HashTable K V) (Option V × HashTable K V))
    (h : delete hash f t key = some r) : delete hash (f + 1) t key = some r := by
  simp only [delete] at h ⊢
  cases hpy : pyIdx hash t.size key with
  | none =>
    simp only [hpy] at h
    exact h
  | some idx =>
    simp only [hpy] at h
    cases hrm : chainRemove key (t.table.getD idx.toNat []) with
    | none =>
      simp only [hrm] at h
      simp only [hrm]
      exact h
    | some p =>
      obtain ⟨v, newB⟩ := p
      simp only [hrm] at h
      simp only [hrm]
      by_cases hcond : 8 < t.size ∧ ((t.count - 1 : ℕ) : ℤ) < Int.fdiv t.threshold 4
      · rw [if_pos hcond] at h ⊢
        cases hres : resizeWith (put hash f)
            ⟨t.size, t.loadFactor, t.threshold, t.count - 1, t.table.set idx.toNat newB⟩
            (max 8 (t.size / 2)) with
        | none =>
          rw [hres] at h
          simp at h
        | some e =>
          rw [hres] at h
          rw [resizeWith_mono (fun s k v r => put_mono f s k v r) hres]
          exact h
      · rw [if_neg hcond] at h ⊢
        exact h

theorem delete_mono_le {hash : K → Option ℤ} {f g : ℕ} (hfg : f ≤ g) {t : HashTable K V}
    {key : K} {r : Except (HashTable K V) (Option V × HashTable K V)}
    (h : delete hash f t key = some r) : delete hash g t key = some r := by
  obtain ⟨d, rfl⟩ := Nat.exists_eq_add_of_le hfg
  clear hfg
  induction d with
  | zero => exact h
  | succ d ihd => exact delete_mono _ _ _ _ ihd

/-! ### The reachability invariant -/

theorem reach_spec {hash : K → Option ℤ} {s0 : ℕ} {lf : ℚ} {t : HashTable K V}
    (h : Reach hash s0 lf t) :
    Inv hash t ∧ t.loadFactor = lf ∧ (8 ≤ s0 → 8 ≤ t.size) := by
  induction h with
  | init t hmk =>
    rw [mkHashTable] at hmk
    by_cases hp : isPowTwo s0 = true
    · rw [if_pos hp] at hmk
      injection hmk with hmk
      subst hmk
      refine ⟨⟨by simp, hp, ?_, rfl, ?_, ?_, ?_⟩, rfl, fun h8 => h8⟩
      · simp [entryCount]
      · simp [keys, items, flatten_replicate_nil]
      · simpa using
          (bucketsFrom_replicate s0 0 :
            bucketsFrom hash s0 0 (List.replicate s0 ([] : List (K × V))) = true)
      · intro q hq
        simp [items, flatten_replicate_nil] at hq
    · rw [if_neg hp] at hmk
      simp at hmk
  | putOk t f k v t' _ hput ih =>
    obtain ⟨hInv, hlf, h8⟩ := ih
    cases hk : hash k with
    | none =>
      exfalso
      by_cases hg : t.threshold ≤ (t.count : ℤ)
      · obtain ⟨s, hputE, _⟩ := put_err_grow v hInv hk hg (le_refl (entryCount t))
        have h1 := put_mono_le (le_max_left f (entryCount t + 1)) hput
        have h2 := put_mono_le (le_max_right f (entryCount t + 1)) hputE
        rw [h1] at h2
        simp at h2
      · cases f with
        | zero => simp [put] at hput
        | succ f' =>
          rw [put_err_no_grow v hk hg f'] at hput
          simp at hput
    | some hv =>
      obtain ⟨t'', hput2, hInv'', hlf'', _, _, _, hsz''⟩ :=
        put_ok (max f (entryCount t + 1)) t k v hv hInv hk
          (by have := le_max_right f (entryCount t + 1); omega)
      have h1 := put_mono_le (le_max_left f (entryCount t + 1)) hput
      rw [hput2] at h1
      have ht : t'' = t' := Except.ok.inj (Option.some.inj h1)
      subst ht
      exact ⟨hInv'', hlf''.trans hlf, fun h8' => hsz'' (h8 h8')⟩
  | putErr t f k v t' _ hput ih =>
    obtain ⟨hInv, hlf, h8⟩ := ih
    cases hk : hash k with
    | some hv =>
      exfalso
      obtain ⟨t'', hput2, _⟩ :=
        put_ok (max f (entryCount t + 1)) t k v hv hInv hk
          (by have := le_max_right f (entryCount t + 1); omega)
      have h1 := put_mono_le (le_max_left f (entryCount t + 1)) hput
      rw [hput2] at h1
      simp at h1
    | none =>
      by_cases hg : t.threshold ≤ (t.count : ℤ)
      · obtain ⟨s, hputE, hInvS, hlookS, hcntS, hlfS, hszS⟩ :=
          put_err_grow v hInv hk hg (le_refl (entryCount t))
        have h1 := put_mono_le (le_max_left f (entryCount t + 1)) hput
        have h2 := put_mono_le (le_max_right f (entryCount t + 1)) hputE
        rw [h1] at h2
        have hts : t' = s := Except.error.inj (Option.some.inj h2)
        subst hts
        exact ⟨hInvS, hlfS.trans hlf, fun h8' => hszS (h8 h8')⟩
      · cases f with
        | zero => simp [put] at hput
        | succ f' =>
          rw [put_err_no_grow v hk hg f'] at hput
          have ht : t = t' := Except.error.inj (Option.some.inj hput)
          exact ht ▸ ⟨hInv, hlf, h8⟩
  | delOk t f k rr t' _ hdel ih =>
    obtain ⟨hInv, hlf, h8⟩ := ih
    cases hk : hash k with
    | none =>
      exfalso
      rw [delete_err f t hk] at hdel
      simp at hdel
    | some hv =>
      cases hfound : lookupTable t k with
      | none =>
        rw [delete_not_found hInv hk hfound f] at hdel
        have hpair := Except.ok.inj (Option.some.inj hdel)
        have ht : t = t' := congrArg Prod.snd hpair
        exact ht ▸ ⟨hInv, hlf, h8⟩
      | some v =>
        obtain ⟨t'', hdel2, hInv'', hlf'', _, _, _, _, hsz''⟩ :=
          delete_found hInv hk hfound (le_max_right f (entryCount t))
        have h1 := delete_mono_le (le_max_left f (entryCount t)) hdel
        rw [hdel2] at h1
        have hpair := Except.ok.inj (Option.some.inj h1)
        have ht : t'' = t' := congrArg Prod.snd hpair
        subst ht
        exact ⟨hInv'', hlf''.trans hlf, fun h8' => hsz'' (h8 h8')⟩
  | delErr t f k t' _ hdel ih =>
    obtain ⟨hInv, hlf, h8⟩ := ih
    cases hk : hash k with
    | none =>
      rw [delete_err f t hk] at hdel
      have ht : t = t' := Except.error.inj (Option.some.inj hdel)
      exact ht ▸ ⟨hInv, hlf, h8⟩
    | some hv =>
      exfalso
      cases hfound : lookupTable t k with
      | none =>
        rw [delete_not_found hInv hk hfound f] at hdel
        simp at hdel
      | some v =>
        obtain ⟨t'', hdel2, _⟩ :=
          delete_found hInv hk hfound (le_max_right f (entryCount t))
        have h1 := delete_mono_le (le_max_left f (entryCount t)) hdel
        rw [hdel2] at h1
        simp at h1

/-! ### Running operation sequences -/

theorem runOps_append {hash : K → Option ℤ} :
    ∀ (a b : List (Op K V)) (t : HashTable K V),
      runOps hash t (a ++ b)
        = (runOps hash t a).bind (fun t' => runOps hash t' b) := by
  intro a
  induction a with
  | nil => intro b t; simp [runOps]
  | cons o rest ih =>
    intro b t
    rw [List.cons_append, runOps, runOps]
    cases hro : runOp hash t o with
    | none => simp
    | some t' => simpa using ih b t'

/-- Running a batch of fresh puts that stays below the threshold: no resize
fires, so the geometry is untouched. -/
theorem runOps_puts_stable {hash : K → Option ℤ} :
    ∀ (l : List (K × V)) (t : HashTable K V),
      Inv hash t → (l.map Prod.fst).Nodup →
      (∀ q ∈ l, (hash q.1).isSome = true) →
      (∀ q ∈ l, lookupTable t q.1 = none) →
      ((entryCount t : ℤ) + l.length ≤ t.threshold) →
      ∃ t', runOps hash t (putsOf l) = some t' ∧ Inv hash t' ∧
        t'.size = t.size ∧ t'.loadFactor = t.loadFactor ∧ t'.threshold = t.threshold ∧
        (∀ x, lookupTable t' x = (chainFind x l).or (lookupTable t x)) ∧
        entryCount t' = entryCount t + l.length := by
  intro l
  induction l with
  | nil =>
    intro t hInv _ _ _ _
    exact ⟨t, rfl, hInv, rfl, rfl, rfl, fun x => by simp [chainFind], by simp⟩
  | cons q rest ih =>
    obtain ⟨k, v⟩ := q
    intro t hInv hnd hhsh hfresh hbud
    have hk : (hash k).isSome = true := hhsh (k, v) (List.mem_cons_self _ _)
    obtain ⟨hv, hhv⟩ := Option.isSome_iff_exists.mp hk
    have hf : lookupTable t k = none := hfresh (k, v) (List.mem_cons_self _ _)
    have hng : (t.count : ℤ) < t.threshold := by
      have hc := hInv.cnt
      simp only [List.length_cons] at hbud
      omega
    obtain ⟨t1, hps, hInv1, hsz1, hlf1, hthr1, hlook1, hother1, hcnt1⟩ :=
      put_no_grow hInv hhv hng (entryCount t)
    rw [hf] at hcnt1
    simp only [Option.isSome_none, Bool.false_eq_true, if_false] at hcnt1
    have he1 : entryCount t1 = entryCount t + 1 := by
      have := hInv.cnt
      have := hInv1.cnt
      omega
    have hknotin : k ∉ rest.map Prod.fst := by
      have := hnd
      simp only [List.map_cons, List.nodup_cons] at this
      exact this.1
    obtain ⟨t', hrest, hInv', hsz', hlf', hthr', hlook', hcnt'⟩ := ih t1 hInv1
      (by simpa using hnd.of_cons)
      (fun q hq => hhsh q (List.mem_cons_of_mem _ hq))
      (fun q hq => by
        have hne : q.1 ≠ k := by
          rintro rfl
          exact hknotin (List.mem_map_of_mem Prod.fst hq)
        rw [hother1 q.1 hne]
        exact hfresh q (List.mem_cons_of_mem _ hq))
      (by
        simp only [List.length_cons] at hbud
        rw [he1, hthr1]
        push_cast
        omega)
    refine ⟨t', ?_, hInv', hsz'.trans hsz1, hlf'.trans hlf1, hthr'.trans hthr1, ?_, ?_⟩
    · show runOps hash t (putsOf ((k, v) :: rest)) = some t'
      rw [putsOf, List.map_cons, runOps]
      rw [show runOp hash t (Op.put k v) = some t1 by rw [runOp, hps]]
      exact hrest
    · intro x
      rw [hlook' x]
      by_cases hxk : x = k
      · subst hxk
        rw [chainFind_eq_none.mpr hknotin, hlook1]
        simp [chainFind]
      · have hke : ¬k = x := fun hc => hxk hc.symm
        rw [hother1 x hxk]
        simp [chainFind, hke]
    · rw [hcnt', he1]
      simp only [List.length_cons]
      omega

/-- Running any sequence of puts and deletes over hashable keys tracks the
reference mapping pointwise. -/
theorem runOps_spec {hash : K → Option ℤ} :
    ∀ (ops : List (Op K V)) (t : HashTable K V) (m : K → Option V),
      Inv hash t → (∀ x, lookupTable t x = m x) →
      (∀ o ∈ ops, (hash o.key).isSome = true) →
      ∃ t', runOps hash t ops = some t' ∧ Inv hash t' ∧
        ∀ x, lookupTable t' x = refRun m ops x := by
  intro ops
  induction ops with
  | nil =>
    intro t m hInv hm _
    exact ⟨t, rfl, hInv, fun x => by rw [refRun]; exact hm x⟩
  | cons o rest ih =>
    intro t m hInv hm hk
    cases o with
    | put k v =>
      have hko : (hash k).isSome = true := by
        simpa [Op.key] using hk (Op.put k v) (List.mem_cons_self _ _)
      obtain ⟨hv, hhv⟩ := Option.isSome_iff_exists.mp hko
      obtain ⟨t1, hput, hInv1, _, hlookk, hlooko, _, _⟩ :=
        put_ok (entryCount t + 1) t k v hv hInv hhv (by omega)
      obtain ⟨t', hrun, hInv', hmap⟩ := ih t1 (refOp m (Op.put k v)) hInv1
        (fun x => by
          simp only [refOp]
          by_cases hxk : x = k
          · subst hxk
            simp [hlookk]
          · rw [if_neg hxk, hlooko x hxk]
            exact hm x)
        (fun o ho => hk o (List.mem_cons_of_mem _ ho))
      refine ⟨t', ?_, hInv', fun x => by rw [refRun]; exact hmap x⟩
      rw [runOps, show runOp hash t (Op.put k v) = some t1 by rw [runOp, hput]]
      exact hrun
    | del k =>
      have hko : (hash k).isSome = true := by
        simpa [Op.key] using hk (Op.del k) (List.mem_cons_self _ _)
      obtain ⟨hv, hhv⟩ := Option.isSome_iff_exists.mp hko
      cases hfound : lookupTable t k with
      | none =>
        obtain ⟨t', hrun, hInv', hmap⟩ := ih t (refOp m (Op.del k)) hInv
          (fun x => by
            simp only [refOp]
            by_cases hxk : x = k
            · subst hxk
              simp [hfound]
            · rw [if_neg hxk]
              exact hm x)
          (fun o ho => hk o (List.mem_cons_of_mem _ ho))
        refine ⟨t', ?_, hInv', fun x => by rw [refRun]; exact hmap x⟩
        rw [runOps, show runOp hash t (Op.del k) = some t by
          rw [runOp, delete_not_found hInv hhv hfound]]
        exact hrun
      | some v =>
        obtain ⟨t1, hdel, hInv1, _, hlookk, hlooko, _, _, _⟩ :=
          delete_found hInv hhv hfound (f := entryCount t + 1) (by omega)
        obtain ⟨t', hrun, hInv', hmap⟩ := ih t1 (refOp m (Op.del k)) hInv1
          (fun x => by
            simp only [refOp]
            by_cases hxk : x = k
            · subst hxk
              simp [hlookk]
            · rw [if_neg hxk, hlooko x hxk]
              exact hm x)
          (fun o ho => hk o (List.mem_cons_of_mem _ ho))
        refine ⟨t', ?_, hInv', fun x => by rw [refRun]; exact hmap x⟩
        rw [runOps, show runOp hash t (Op.del k) = some t1 by rw [runOp, hdel]]
        exact hrun

/-! ### Construction -/

theorem mkHashTable_spec {s0 : ℕ} {lf : ℚ} {t : HashTable K V}
    (hmk : mkHashTable s0 lf = some t) :
    t.size = s0 ∧ t.loadFactor = lf ∧ t.threshold = pyThreshold s0 lf ∧
      t.count = 0 ∧ entryCount t = 0 ∧ ∀ x, lookupTable t x = none := by
  rw [mkHashTable] at hmk
  by_cases hp : isPowTwo s0 = true
  · rw [if_pos hp] at hmk
    injection hmk with hmk
    subst hmk
    refine ⟨rfl, rfl, rfl, rfl, by simp [entryCount], fun x => ?_⟩
    simp [lookupTable, items, flatten_replicate_nil, chainFind]
  · rw [if_neg hp] at hmk
    simp at hmk

/-! ### The claims -/

/-- C1: round-trip — for every hashable key `k` and value `v`, `put(k, v)`
succeeds (at any recursion depth covering the current entry count) and an
immediate `get(k)` on the resulting container returns `v`. -/
theorem claim1_put_get_roundtrip (hash : K → Option ℤ) (f : ℕ) (t : HashTable K V)
    (key : K) (value : V) (hv : ℤ) (d : V)
    (hInv : Inv hash t) (hh : hash key = some hv) (hf : entryCount t < f) :
    ∃ t', put hash f t key value = some (Except.ok t') ∧
      get hash t' key d = Except.ok value := by
  obtain ⟨t', h1, hInv', _, hlookk, _, _, _⟩ := put_ok f t key value hv hInv hh hf
  refine ⟨t', h1, ?_⟩
  rw [get_spec hInv' hh, hlookk]
  rfl

theorem claim1_put_get_roundtrip_witness :
    ∃ t', put hashNat 1 t08 3 7 = some (Except.ok t') ∧
      get hashNat t' 3 0 = Except.ok 7 :=
  claim1_put_get_roundtrip hashNat 1 t08 3 7 3 0 (by decide) (by decide) (by decide)

/-- C2: no data loss across resizes — running any sequence of puts and
deletes over hashable keys from a freshly constructed table succeeds, and
after it the set of pairs enumerated by `items` is exactly the graph of the
reference mapping obtained by replaying the sequence. -/
theorem claim2_no_data_loss (hash : K → Option ℤ) (s0 : ℕ) (lf : ℚ)
    (t0 : HashTable K V) (ops : List (Op K V))
    (hmk : mkHashTable s0 lf = some t0)
    (hk : ∀ o ∈ ops, (hash o.key).isSome = true) :
    ∃ t', runOps hash t0 ops = some t' ∧
      ∀ k v, ((k, v) ∈ items t' ↔ refRun (fun _ => none) ops k = some v) := by
  have hInv0 : Inv hash t0 := (reach_spec (Reach.init t0 hmk)).1
  obtain ⟨_, _, _, _, _, hlook0⟩ := mkHashTable_spec hmk
  obtain ⟨t', hrun, hInv', hmap⟩ :=
    runOps_spec ops t0 (fun _ => none) hInv0 (fun x => hlook0 x) hk
  refine ⟨t', hrun, fun k v => ?_⟩
  rw [mem_items_iff_lookup hInv'.nod, hmap k]

theorem claim2_no_data_loss_witness :
    ∃ t', runOps hashNat t08 [Op.put 1 10, Op.put 2 20, Op.del 1] = some t' ∧
      ∀ k v, ((k, v) ∈ items t' ↔
        refRun (fun _ => none) [Op.put 1 10, Op.put 2 20, Op.del 1] k = some v) :=
  claim2_no_data_loss hashNat 8 (mkRat 3 4) t08 [Op.put 1 10, Op.put 2 20, Op.del 1]
    (by decide) (by decide)

/-- C3 (corrected): at every reachable state, `size` passes the power-of-two
check and `count` equals the total number of entries over all chains, and
`size` never falls below 8 when the initial size is at least 8; but the
constructor also accepts the smaller powers of two 1, 2 and 4 (its check has
no minimum), so `size ≥ 8` fails for those initial sizes — see
`claim3_counterexample`. -/
theorem claim3_size_invariant (hash : K → Option ℤ) (s0 : ℕ) (lf : ℚ)
    (t : HashTable K V) (hr : Reach hash s0 lf t) :
    isPowTwo t.size = true ∧ t.count = entryCount t ∧ (8 ≤ s0 → 8 ≤ t.size) := by
  obtain ⟨hInv, _, h8⟩ := reach_spec hr
  exact ⟨hInv.pow, hInv.cnt, h8⟩

theorem claim3_size_invariant_witness :
    isPowTwo t08.size = true ∧ t08.count = entryCount t08 ∧ (8 ≤ 8 → 8 ≤ t08.size) :=
  claim3_size_invariant hashNat 8 (mkRat 3 4) t08 (Reach.init t08 (by decide))

/-- C3 counterexample: the constructor accepts `initial_size = 4` (it is a
power of two, and `_is_power_of_two` imposes no minimum), producing a live
container whose size is below 8. -/
theorem claim3_counterexample :
    mkHashTable 4 (mkRat 3 4) = some (t04 : HashTable ℕ ℕ) ∧ t04.size = 4 := by
  decide

/-- C4 (corrected): an unhashable key raises and the raise propagates; `get`
and `delete` leave the state unchanged, and so does `put` while
`count < threshold` — but when `count ≥ threshold`, `put` grows the table
before hashing the key, so the escaping exception leaves a resized (though
content-identical) container; see `claim4_counterexample`. -/
theorem claim4_unhashable_error (hash : K → Option ℤ) (t : HashTable K V)
    (key : K) (value : V) (d : V) (f : ℕ)
    (hk : hash key = none) (hInv : Inv hash t) :
    get hash t key d = Except.error () ∧
    delete hash f t key = some (Except.error t) ∧
    ((t.count : ℤ) < t.threshold →
      put hash (f + 1) t key value = some (Except.error t)) ∧
    (t.threshold ≤ (t.count : ℤ) → entryCount t ≤ f →
      ∃ s, put hash (f + 1) t key value = some (Except.error s) ∧
        (∀ x, lookupTable s x = lookupTable t x) ∧ entryCount s = entryCount t) := by
  refine ⟨get_err t hk d, delete_err f t hk, ?_, ?_⟩
  · intro hng
    exact put_err_no_grow value hk (not_le.mpr hng) f
  · intro hg hbud
    obtain ⟨s, h1, _, h3, h4, _, _⟩ := put_err_grow value hInv hk hg hbud
    exact ⟨s, h1, h3, h4⟩

theorem claim4_unhashable_error_witness :
    get hashOpt tu6 none 0 = Except.error () ∧
    delete hashOpt 6 tu6 none = some (Except.error tu6) ∧
    ((tu6.count : ℤ) < tu6.threshold →
      put hashOpt 7 tu6 none 99 = some (Except.error tu6)) ∧
    (tu6.threshold ≤ (tu6.count : ℤ) → entryCount tu6 ≤ 6 →
      ∃ s, put hashOpt 7 tu6 none 99 = some (Except.error s) ∧
        (∀ x, lookupTable s x = lookupTable tu6 x) ∧ entryCount s = entryCount tu6) :=
  claim4_unhashable_error hashOpt tu6 none 99 0 6 (by decide) (by decide)

/-- C4 counterexample: on a table at its growth threshold, `put` with an
unhashable key raises only after the resize has run — the state carried by
the escaping exception has size 16 while the table before the call had
size 8, so the container is not left unchanged. -/
theorem claim4_counterexample :
    hashOpt none = none ∧ tu6.size = 8 ∧
    (put hashOpt 7 tu6 none 99).map (Except.mapError HashTable.size)
      = some (Except.error 16) := by
  decide

/-- C5: growth trigger — from the default construction
(`initial_size = 8`, `load_factor = 0.75`, threshold 6), putting any 6
distinct fresh hashable keys leaves `size = 8`, and putting a 7th distinct
key grows the table to `size = 16`. -/
theorem claim5_growth_trigger (hash : K → Option ℤ) (t0 : HashTable K V)
    (l : List (K × V)) (k7 : K) (v7 : V) (hv7 : ℤ)
    (hmk : mkHashTable 8 ((3 : ℚ)/4) = some t0)
    (hlen : l.length = 6)
    (hnd : (l.map Prod.fst).Nodup)
    (hh : ∀ q ∈ l, (hash q.1).isSome = true)
    (hh7 : hash k7 = some hv7)
    (_hk7 : k7 ∉ l.map Prod.fst) :
    ∃ t6, runOps hash t0 (putsOf l) = some t6 ∧ t6.size = 8 ∧
      ∃ t7, put hash (entryCount t6 + 2) t6 k7 v7 = some (Except.ok t7) ∧
        t7.size = 16 := by
  have hInv0 : Inv hash t0 := (reach_spec (Reach.init t0 hmk)).1
  obtain ⟨hsz0, hlf0, hthr0, hcnt0, hec0, hlook0⟩ := mkHashTable_spec hmk
  have hthr8 : pyThreshold 8 ((3 : ℚ)/4) = 6 := by rw [lf_eq]; decide
  obtain ⟨t6, hrun, hInv6, hsz6, hlf6, hthr6, hlook6, hec6⟩ :=
    runOps_puts_stable l t0 hInv0 hnd hh (fun q _ => hlook0 q.1)
      (by rw [hec0, hthr0, hthr8, hlen]; norm_num)
  have hsz68 : t6.size = 8 := hsz6.trans hsz0
  refine ⟨t6, hrun, hsz68, ?_⟩
  have hg : t6.threshold ≤ (t6.count : ℤ) := by
    rw [hthr6, hthr0, hthr8, hInv6.cnt, hec6, hec0, hlen]
    norm_num
  have hnr : (entryCount t6 : ℤ) ≤ pyThreshold (t6.size * 2) t6.loadFactor := by
    rw [hec6, hec0, hlen, hsz68, hlf6, hlf0, lf_eq]
    decide
  obtain ⟨t7, hput, _, hsz7, _, _, _, _, _⟩ := put_grow hInv6 hh7 hg hnr (entryCount t6)
  refine ⟨t7, hput, ?_⟩
  rw [hsz7, hsz68]

theorem claim5_growth_trigger_witness :
    ∃ t6, runOps hashNat t08
        (putsOf [(0, 0), (1, 1), (2, 2), (3, 3), (4, 4), (5, 5)]) = some t6 ∧
      t6.size = 8 ∧
      ∃ t7, put hashNat (entryCount t6 + 2) t6 6 6 = some (Except.ok t7) ∧
        t7.size = 16 :=
  claim5_growth_trigger hashNat t08 [(0, 0), (1, 1), (2, 2), (3, 3), (4, 4), (5, 5)]
    6 6 6 (by rw [lf_eq]; decide) (by decide) (by decide) (by decide) (by decide)
    (by decide)

/-- C6: shrink policy — a successful delete removes the entry and shrinks
exactly when `size > 8` and the post-removal count is below
`threshold // 4`: in that case the size is halved, and the result never
falls below 8. -/
theorem claim6_shrink_policy (hash : K → Option ℤ) (t : HashTable K V) (key : K)
    (hv : ℤ) (v : V) (f : ℕ)
    (hInv : Inv hash t) (hh : hash key = some hv)
    (hfound : lookupTable t key = some v) (hbud : entryCount t ≤ f) :
    ∃ t', delete hash f t key = some (Except.ok (some v, t')) ∧ Inv hash t' ∧
      t'.size = (if 8 < t.size ∧ ((t.count : ℤ) - 1) < Int.fdiv t.threshold 4
        then t.size / 2 else t.size) ∧
      (8 ≤ t.size → 8 ≤ t'.size) := by
  obtain ⟨t', h1, hInv', _, _, _, _, hsz, h8⟩ := delete_found hInv hh hfound hbud
  exact ⟨t', h1, hInv', hsz, h8⟩

theorem claim6_shrink_policy_witness :
    ∃ t', delete hashNat 3 s16c 2 = some (Except.ok (some 2, t')) ∧ Inv hashNat t' ∧
      t'.size = (if 8 < s16c.size ∧ ((s16c.count : ℤ) - 1) < Int.fdiv s16c.threshold 4
        then s16c.size / 2 else s16c.size) ∧
      (8 ≤ s16c.size → 8 ≤ t'.size) :=
  claim6_shrink_policy hashNat s16c 2 2 2 3 (by decide) (by decide) (by decide)
    (by decide)

/-- C7: delete of an absent hashable key returns the `None` sentinel, raises
nothing, and leaves the container — its count included — literally
unchanged. -/
theorem claim7_delete_absent (hash : K → Option ℤ) (t : HashTable K V) (key : K)
    (hv : ℤ) (f : ℕ) (hInv : Inv hash t) (hh : hash key = some hv)
    (habs : lookupTable t key = none) :
    delete hash f t key = some (Except.ok (none, t)) :=
  delete_not_found hInv hh habs f

theorem claim7_delete_absent_witness :
    delete hashNat 0 t08 5 = some (Except.ok (none, t08)) :=
  claim7_delete_absent hashNat t08 5 5 0 (by decide) (by decide) (by decide)

/-- C8 (corrected): `__contains__` is `get(key) is not None`, so it answers
true exactly when an entry for the key is stored with a value other than
`None`; a stored entry whose value is `None` itself is reported absent —
see `claim8_counterexample`. -/
theorem claim8_contains_none_value (hash : K → Option ℤ) (t : HashTable K (Option A))
    (key : K) (hv : ℤ) (hInv : Inv hash t) (hh : hash key = some hv) :
    contains hash t key = Except.ok ((lookupTable t key).getD none).isSome ∧
    (((lookupTable t key).getD none).isSome = true ↔
      ∃ a, lookupTable t key = some (some a)) := by
  refine ⟨contains_spec hInv hh, ?_⟩
  cases hl : lookupTable t key with
  | none => simp
  | some o => cases o <;> simp

theorem claim8_contains_none_value_witness :
    contains hashNat tc8b 3 = Except.ok ((lookupTable tc8b 3).getD none).isSome ∧
    (((lookupTable tc8b 3).getD none).isSome = true ↔
      ∃ a, lookupTable tc8b 3 = some (some a)) :=
  claim8_contains_none_value hashNat tc8b 3 3 (by decide) (by decide)

/-- C8 counterexample: the pair `(3, None)` is stored in the container, yet
the membership test answers false — membership is not equivalent to an entry
with the key being stored. -/
theorem claim8_counterexample :
    (3, (none : Option ℕ)) ∈ items tc8 ∧ contains hashNat tc8 3 = Except.ok false := by
  decide

/-- C9: totality — on any reachable container, `put` and `delete` with a
hashable key complete at recursion depth `entryCount + 1` (the `put`/`_resize`
recursion always terminates), and `get` returns without raising. -/
theorem claim9_operations_total (hash : K → Option ℤ) (s0 : ℕ) (lf : ℚ)
    (t : HashTable K V) (key : K) (hv : ℤ) (value : V)
    (hr : Reach hash s0 lf t) (hh : hash key = some hv) :
    (put hash (entryCount t + 1) t key value).isSome = true ∧
    (delete hash (entryCount t + 1) t key).isSome = true ∧
    ∀ d, get hash t key d = Except.ok ((lookupTable t key).getD d) := by
  have hInv : Inv hash t := (reach_spec hr).1
  refine ⟨?_, ?_, fun d => get_spec hInv hh d⟩
  · obtain ⟨t', h1, _⟩ := put_ok (entryCount t + 1) t key value hv hInv hh (by omega)
    rw [h1]
    rfl
  · cases hl : lookupTable t key with
    | none =>
      rw [delete_not_found hInv hh hl (entryCount t + 1)]
      rfl
    | some v0 =>
      obtain ⟨t', h1, _⟩ := delete_found hInv hh hl (f := entryCount t + 1) (by omega)
      rw [h1]
      rfl

theorem claim9_operations_total_witness :
    (put hashNat (entryCount t08 + 1) t08 3 7).isSome = true ∧
    (delete hashNat (entryCount t08 + 1) t08 3).isSome = true ∧
    ∀ d, get hashNat t08 3 d = Except.ok ((lookupTable t08 3).getD d) :=
  claim9_operations_total hashNat 8 (mkRat 3 4) t08 3 3 7
    (Reach.init t08 (by decide)) (by decide)

/-- C10: index safety — on any reachable container, the computed bucket
index of a hashable key is defined, non-negative and below `size`, hence
below the length of the bucket list, even for negative hash values. -/
theorem claim10_index_in_range (hash : K → Option ℤ) (s0 : ℕ) (lf : ℚ)
    (t : HashTable K V) (key : K) (hv : ℤ)
    (hr : Reach hash s0 lf t) (hh : hash key = some hv) :
    pyIdx hash t.size key = some (hv % (t.size : ℤ)) ∧
    0 ≤ hv % (t.size : ℤ) ∧ hv % (t.size : ℤ) < (t.size : ℤ) ∧
    (hv % (t.size : ℤ)).toNat < t.table.length := by
  have hInv : Inv hash t := (reach_spec hr).1
  obtain ⟨h1, h2, h3⟩ := pyIdx_spec hInv.pos hh
  refine ⟨h1, h2, h3, ?_⟩
  rw [hInv.len]
  omega

theorem claim10_index_in_range_witness :
    pyIdx hashNeg t08.size 0 = some ((-5) % (t08.size : ℤ)) ∧
    0 ≤ (-5) % (t08.size : ℤ) ∧ (-5) % (t08.size : ℤ) < (t08.size : ℤ) ∧
    ((-5) % (t08.size : ℤ)).toNat < t08.table.length :=
  claim10_index_in_range hashNeg 8 (mkRat 3 4) t08 0 (-5)
    (Reach.init t08 (by decide)) (by decide)

end HashTables
